import Mathlib

/-!
Verification of the timed-automata core of the controller-synthesis tool
(SCICO-D-22-00082).  The development shallowly embeds the C++ sources:

* `src/ta/include/ta/ata.h` — alternating timed automata (ATA): runs,
  symbol transitions, time transitions, word acceptance;
* `src/ta/include/ta/ta.h` — timed automata (TA): transitions, paths,
  enabledness, word acceptance, transition validation;
* `src/automata/include/automata/ta_product.hpp` — the product construction;
* `src/gocos/golog_program.cpp` — the exclusive Golog-environment lifecycle.

Conventions of the embedding:

* `Time` and clock valuations are rationals (the specification fixes
  non-negative rational valuations).
* C++ `std::set` / `std::multimap` collections are lists; a `std::set`
  built only through ordered insertion is modelled by an ordered,
  duplicate-free insertion function on lists, so iteration order matches
  the C++ iteration order.  Where a claim speaks about a set of results,
  the theorem is stated up to `List.toFinset` membership, which is
  independent of ordering concerns.
* Exceptions become `Except`; a C++ function that can throw returns
  `Except E A` and a thrown exception is an `Except.error`.
* The alphabet type (`Symbol` in `automata.h`, the template parameter
  `ActionT` in `ta_product.hpp`) and the location types are type
  parameters, ordered as C++ requires `operator<` on them.
* Clock names are `String`s; a `std::map<std::string, Clock>` whose domain
  is the (fixed) clock set of the automaton is modelled as a total
  valuation function `String → ℚ` (names outside the clock set are never
  read by the embedded code under the well-formedness invariants).
-/

namespace automata

/-- Time values: the specification fixes non-negative rational valuations. -/
abbrev Time : Type := ℚ

/-- A clock valuation (the value of a single clock). -/
abbrev ClockValuation : Type := ℚ

/-- Modelled from the spec: `automata.h` is not part of the provided sources.
Per §3 of the specification, a `ClockConstraint` is one of
`{ <, ≤, =, ≥, > }` compared to an integer bound
(`AtomicClockConstraintT<std::less<Time>>(n)` and friends in the tests). -/
inductive ClockConstraint : Type where
  | lt (bound : ℤ)
  | le (bound : ℤ)
  | eq (bound : ℤ)
  | ge (bound : ℤ)
  | gt (bound : ℤ)
deriving DecidableEq, Repr

/-- Modelled from the spec: satisfaction of an atomic clock constraint by a
clock valuation (`is_satisfied` declared in the missing `automata.h`;
behaviour pinned by `test/test_ata_formula.cpp`). -/
def is_satisfied (c : ClockConstraint) (v : ClockValuation) : Bool :=
  match c with
  | .lt b => decide (v < (b : ℚ))
  | .le b => decide (v ≤ (b : ℚ))
  | .eq b => decide (v = (b : ℚ))
  | .ge b => decide (v ≥ (b : ℚ))
  | .gt b => decide (v > (b : ℚ))

namespace ata

/-- A state of an ATA: a location together with the (single) clock value
(`State<LocationT>` of the missing `automata.h`, used throughout `ata.h`). -/
abbrev State (L : Type) : Type := L × ClockValuation

/-- An ATA configuration: a finite set of states (`std::set<State>`),
modelled as a list and compared up to `List.toFinset` where a claim
speaks about sets. -/
abbrev Configuration (L : Type) : Type := List (State L)

/-- Modelled from the spec: the ATA transition formulas of `ta/ata_formula.h`
(not among the provided sources).  §4.C of the specification lists the
variants `True`, `False`, `Loc(q)`, `Constraint(⋈, n)`, `And(φ, ψ)`,
`Or(φ, ψ)`, `Reset(φ)`; the class names in `test/test_ata_formula.cpp` are
`TrueFormula`, `FalseFormula`, `LocationFormula`, `ClockConstraintFormula`,
`ConjunctionFormula`, `DisjunctionFormula`, `ResetClockFormula`. -/
inductive Formula (L : Type) : Type where
  | tt
  | ff
  | loc (l : L)
  | constraint (c : ClockConstraint)
  | and (φ ψ : Formula L)
  | or (φ ψ : Formula L)
  | reset (φ : Formula L)
deriving DecidableEq, Repr

/-- Modelled from the spec: satisfaction `sat(φ, C, v)` of a transition
formula by a configuration at a clock valuation (§3 of the spec:
`loc q` ⇔ `(q, v) ∈ C`; `reset(φ')` ⇔ C models φ' at valuation 0;
conjunction/disjunction as expected; behaviour pinned by the
`is_satisfied` test cases of `test/test_ata_formula.cpp`). -/
def Formula.is_satisfied [DecidableEq L] :
    Formula L → Configuration L → ClockValuation → Bool
  | .tt, _, _ => true
  | .ff, _, _ => false
  | .loc l, C, v => decide ((l, v) ∈ C)
  | .constraint c, _, v => automata.is_satisfied c v
  | .and φ ψ, C, v => φ.is_satisfied C v && ψ.is_satisfied C v
  | .or φ ψ, C, v => φ.is_satisfied C v || ψ.is_satisfied C v
  | .reset φ, C, _ => φ.is_satisfied C 0

/-- Modelled from the spec: minimal models `mm(φ, v)` of a transition formula
(§4.C laws), with one deviation forced by the repository's own tests: for a
disjunction, `test/test_ata_formula.cpp` (test case "Minimal models of ATA
disjunction formulas") requires
`DisjunctionFormula(Loc s0, True).get_minimal_models(0) = {{(s0,0)}, {}}`,
i.e. the plain union of the two model sets *without* the ⊆-minimality
filter that §4.C states.  The conjunction case keeps the filter exactly as
the specification words it (the conjunction tests cannot distinguish the
two readings).  Model sets are lists of configurations; claims about them
are stated up to `toFinset`. -/
def Formula.get_minimal_models [DecidableEq L] :
    Formula L → ClockValuation → List (Configuration L)
  | .tt, _ => [[]]
  | .ff, _ => []
  | .loc l, v => [[(l, v)]]
  | .constraint c, v => if automata.is_satisfied c v then [[]] else []
  | .and φ ψ, v =>
      let prod := (φ.get_minimal_models v).flatMap
        (fun a => (ψ.get_minimal_models v).map (fun b => a ++ b))
      prod.filter (fun m => !(prod.any (fun m₂ => m₂.toFinset ⊂ m.toFinset)))
  | .or φ ψ, v => φ.get_minimal_models v ++ ψ.get_minimal_models v
  | .reset φ, _ => φ.get_minimal_models 0

/-- A transition of an alternating timed automaton (`ata.h`, class
`Transition`): a source location, a symbol, and a transition formula. -/
structure Transition (S L : Type) : Type where
  source : L
  symbol : S
  formula : Formula L

/-- A run of an ATA (`ata.h`): a sequence of steps, each a symbol or a time
delta (`std::variant<Symbol, Time>`) together with the configuration
reached by that step. -/
abbrev Run (S L : Type) : Type := List ((S ⊕ Time) × Configuration L)

/-- The exceptions thrown by `ata.h`: `WrongTransitionTypeException` and
`NegativeTimeDeltaException` (which records the offending delta). -/
inductive AtaException : Type where
  | wrongTransitionType
  | negativeTimeDelta (delta : Time)
deriving DecidableEq, Repr

/-- An alternating timed automaton (`ata.h`, class
`AlternatingTimedAutomaton`): alphabet, initial location, final locations
and transitions.  The C++ `std::set<Transition>` is a list iterated in its
stored order (its order is by `(source, symbol, formula-pointer)`, so for
the automata of interest — at most one transition per `(source, symbol)`
pair — the order is irrelevant to `find_if`). -/
structure AlternatingTimedAutomaton (S L : Type) : Type where
  alphabet : List S
  initial_location : L
  final_locations : List L
  transitions : List (Transition S L)

variable {S L : Type}

/-- Does a run end with a symbol step?  (`std::holds_alternative<Symbol>(run.back().first)`
guarded by `!run.empty()` in `make_symbol_transition`.) -/
def endsWithSymbol (run : Run S L) : Bool :=
  match run.getLast? with
  | some (Sum.inl _, _) => true
  | _ => false

/-- Does a run end with a time step? (`std::holds_alternative<Time>(run.back().first)`
in `make_time_transition`.) -/
def endsWithTime (run : Run S L) : Bool :=
  match run.getLast? with
  | some (Sum.inr _, _) => true
  | _ => false

/-- The cartesian combination of `ata.h:170-188`: starting from the models of
the first state, repeatedly expand every accumulated configuration with
every model of the next state (set union becomes list append; claims are
stated up to `toFinset`). -/
def combineModels [DecidableEq L] (first : List (Configuration L))
    (rest : List (List (Configuration L))) : List (Configuration L) :=
  rest.foldl
    (fun configurations state_models =>
      state_models.flatMap (fun sm => configurations.map (fun c => c ++ sm)))
    first

namespace AlternatingTimedAutomaton

variable [DecidableEq S] [DecidableEq L]

/-- The start states of a symbol step (`ata.h:147-152`): the singleton
`{(initial_location, 0)}` for the empty run, otherwise the last
configuration of the run. -/
def startStates (A : AlternatingTimedAutomaton S L) (run : Run S L) :
    Configuration L :=
  match run.getLast? with
  | none => [(A.initial_location, 0)]
  | some st => st.2

/-- `std::find_if` over the transition set (`ata.h:157-159`): the first
transition with the given source and symbol. -/
def findTransition (A : AlternatingTimedAutomaton S L) (q : L) (a : S) :
    Option (Transition S L) :=
  A.transitions.find? (fun t => decide (t.source = q) && decide (t.symbol = a))

/-- The vector `models` of `ata.h:155-165`: one set of target configurations
for each start state that has a matching transition (a start state without
one is skipped by the `continue`). -/
def modelsOf (A : AlternatingTimedAutomaton S L) (states : Configuration L)
    (a : S) : List (List (Configuration L)) :=
  states.filterMap
    (fun s => (A.findTransition s.1 a).map
      (fun t => t.formula.get_minimal_models s.2))

/-- The loop body of `make_symbol_transition` (`ata.h:140-194`), processing
the runs in order while accumulating the result vector `res`.  Mirrors the
release-build behaviour of the `assert(!models.empty()); if (models.empty())
return {};` pair: when no start state of the current run has a matching
transition, the whole call returns the empty vector, discarding `res`. -/
def symbolStepAux (A : AlternatingTimedAutomaton S L) (a : S)
    (acc : List (Run S L)) :
    List (Run S L) → Except AtaException (List (Run S L))
  | [] => .ok acc
  | run :: rest =>
    if endsWithSymbol run then
      .error .wrongTransitionType
    else
      match A.modelsOf (A.startStates run) a with
      | [] => .ok []
      | m₀ :: ms =>
        let configurations := combineModels m₀ ms
        symbolStepAux A a
          (acc ++ configurations.map (fun c => run ++ [(Sum.inl a, c)])) rest

/-- `AlternatingTimedAutomaton::make_symbol_transition` (`ata.h:137-196`). -/
def make_symbol_transition (A : AlternatingTimedAutomaton S L)
    (runs : List (Run S L)) (a : S) : Except AtaException (List (Run S L)) :=
  symbolStepAux A a [] runs

/-- The per-run body of `make_time_transition` (`ata.h:207-225`). -/
def timeStepAux (time : Time) :
    List (Run S L) → Except AtaException (List (Run S L))
  | [] => .ok []
  | run :: rest =>
    match run.getLast? with
    | none => .error .wrongTransitionType
    | some (Sum.inr _, _) => .error .wrongTransitionType
    | some (Sum.inl _, cfg) =>
      (timeStepAux time rest).map
        (fun res =>
          (run ++ [(Sum.inr time, cfg.map (fun s => (s.1, s.2 + time)))]) :: res)

/-- `AlternatingTimedAutomaton::make_time_transition` (`ata.h:201-227`):
negative deltas are rejected first; then every run must be non-empty and
must not end with a time step; the appended configuration adds the delta
to every clock value. -/
def make_time_transition (_A : AlternatingTimedAutomaton S L)
    (runs : List (Run S L)) (time : Time) :
    Except AtaException (List (Run S L)) :=
  if time < 0 then .error (.negativeTimeDelta time) else timeStepAux time runs

/-- The loop of `accepts_word` (`ata.h:246-251`) over the timed word after
its first symbol, carrying the previous absolute time. -/
def acceptsAux (A : AlternatingTimedAutomaton S L)
    (runs : List (Run S L)) (last_time : Time) :
    List (S × Time) → Except AtaException (List (Run S L))
  | [] => .ok runs
  | (a, t) :: rest => do
    let runs₁ ← A.make_time_transition runs (t - last_time)
    let runs₂ ← A.make_symbol_transition runs₁ a
    acceptsAux A runs₂ t rest

/-- Is the last configuration of a run accepting, i.e. does it consist only
of final locations (`ata.h:253-262`)? -/
def lastAccepting (A : AlternatingTimedAutomaton S L) (run : Run S L) : Bool :=
  (match run.getLast? with
   | none => ([] : Configuration L)
   | some st => st.2).all (fun s => decide (s.1 ∈ A.final_locations))

/-- `AlternatingTimedAutomaton::accepts_word` (`ata.h:232-263`): the empty
word is rejected outright; otherwise the first symbol is read from the
single empty run, the remaining word alternates time and symbol
transitions, and the word is accepted if some resulting run ends in a
configuration of final locations only. -/
def accepts_word (A : AlternatingTimedAutomaton S L)
    (word : List (S × Time)) : Except AtaException Bool :=
  match word with
  | [] => .ok false
  | (a, t) :: rest => do
    let runs ← A.make_symbol_transition [[]] a
    let final ← acceptsAux A runs t rest
    .ok (final.any (fun run => A.lastAccepting run))

end AlternatingTimedAutomaton
end ata

namespace ta

/-- A clock-set valuation (`ta.h`: `std::map<std::string, Clock>` inside a
`Path`): modelled as a total function on clock names; under the
well-formedness invariant only the TA's own clocks are ever read. -/
abbrev ClockSetValuation : Type := String → Time

/-- A transition of a timed automaton (`ta.h`, class `Transition`):
source, target, symbol, guard (a multimap from clock names to atomic
constraints) and the set of clocks reset by the transition. -/
structure Transition (S L : Type) : Type where
  source : L
  target : L
  symbol : S
  clock_constraints : List (String × ClockConstraint) := []
  clock_resets : List String := []

/-- `Transition::is_enabled` (`ta.h:80-92`): the symbol must match and every
clock constraint must be satisfied by the valuation of its clock. -/
def Transition.is_enabled [DecidableEq S] (t : Transition S L) (symbol : S)
    (clock_vals : ClockSetValuation) : Bool :=
  if ¬(symbol = t.symbol) then false
  else t.clock_constraints.all
    (fun c => automata.is_satisfied c.2 (clock_vals c.1))

/-- One finite path of a TA (`ta.h`, class `Path`): the sequence of
`(symbol, time, location)` triples taken so far, the clock valuations, the
current location and the absolute time `tick_` of the last step. -/
structure Path (S L : Type) : Type where
  sequence : List (S × Time × L)
  clock_valuations : ClockSetValuation
  current_location : L
  tick : Time

/-- The `Path` constructor (`ta.h:120-126`): empty sequence, all clocks (and,
in this functional model, every name) at 0, the given initial location,
tick 0. -/
def Path.mk' (initial_location : L) : Path S L :=
  ⟨[], fun _ => 0, initial_location, 0⟩

/-- The exceptions of `ta.h` / `ta_product.hpp`: `InvalidLocationException`,
`InvalidClockException` and `NotImplementedException` (the distinct
unsupported-feature error). -/
inductive TaException (L : Type) : Type where
  | invalidLocation (l : L)
  | invalidClock (name : String)
  | notImplemented
deriving DecidableEq, Repr

/-- A timed automaton (`ta.h`, class `TimedAutomaton`, merged with the getters
used by `ta_product.hpp`): location set, alphabet, initial location, final
locations, clock names and the transition multimap keyed by source
location.  The `std::set`s are lists grown by ordered insertion, the
multimap a list grown by `multimapInsert`. -/
structure TimedAutomaton (S L : Type) : Type where
  locations : List L
  alphabet : List S
  initial_location : L
  final_locations : List L
  clocks : List String
  transitions : List (L × Transition S L)

variable {S L : Type}

/-- Ordered duplicate-free insertion into a sorted list: the behaviour of
`std::set::insert` (an equivalent element already present is kept and the
insertion is a no-op). -/
def setInsert [LinearOrder L] (a : L) : List L → List L
  | [] => [a]
  | b :: rest =>
    if a < b then a :: b :: rest
    else if b < a then b :: setInsert a rest
    else b :: rest

/-- `std::multimap::insert` on a key-sorted list: the new entry is placed at
the end of the equal range of its key. -/
def multimapInsert [LinearOrder L] (m : List (L × Transition S L)) (k : L)
    (v : Transition S L) : List (L × Transition S L) :=
  match m with
  | [] => [(k, v)]
  | e :: rest =>
    if k < e.1 then (k, v) :: e :: rest
    else e :: multimapInsert rest k v

/-- `std::multimap::equal_range` (`ta.h:238`): the transitions stored under
the given source location, in stored order. -/
def equalRange [DecidableEq L] (m : List (L × Transition S L)) (k : L) :
    List (Transition S L) :=
  (m.filter (fun e => decide (e.1 = k))).map (fun e => e.2)

namespace TimedAutomaton

/-- The `TimedAutomaton` constructor (`ta.h:159-165` together with the
alphabet taken by the constructor variant used in `ta_product.hpp`):
the location set starts as the initial location plus the final
locations. -/
def mk' [LinearOrder L] (alphabet : List S) (initial_location : L)
    (final_locations : List L) : TimedAutomaton S L :=
  { locations := final_locations.foldl (fun ls l => setInsert l ls)
      [initial_location]
    alphabet := alphabet
    initial_location := initial_location
    final_locations := final_locations
    clocks := []
    transitions := [] }

/-- `TimedAutomaton::add_location` (`ta.h:169-173`). -/
def add_location [LinearOrder L] (ta : TimedAutomaton S L) (l : L) :
    TimedAutomaton S L :=
  { ta with locations := setInsert l ta.locations }

/-- `TimedAutomaton::add_clock` (`ta.h:177-181`): `std::set` insertion into
the clock-name set.  Only membership in this set is ever observed (reads
go through the total valuation functions), so the set is modelled as a
duplicate-free list in insertion order. -/
def add_clock (ta : TimedAutomaton S L) (name : String) :
    TimedAutomaton S L :=
  { ta with clocks := if name ∈ ta.clocks then ta.clocks
                      else ta.clocks ++ [name] }

/-- `TimedAutomaton::add_transition` (`ta.h:196-216`): the source and target
must be known locations and every guard clock and reset clock a known
clock, checked in that order; the first violation is thrown.  On success
the transition is inserted into the multimap under its source. -/
def add_transition [LinearOrder L] [DecidableEq S] (ta : TimedAutomaton S L)
    (t : Transition S L) :
    Except (TaException L) (TimedAutomaton S L) :=
  if t.source ∉ ta.locations then .error (.invalidLocation t.source)
  else if t.target ∉ ta.locations then
    .error (.invalidLocation t.target)
  else
    match (t.clock_constraints.map (fun c => c.1) ++ t.clock_resets).find?
        (fun name => decide (name ∉ ta.clocks)) with
    | some name => .error (.invalidClock name)
    | none =>
      .ok { ta with transitions := multimapInsert ta.transitions t.source t }

/-- The application of one transition to a path (`ta.h:248-252`): switch to
the target location, record the step in the sequence, and reset the
transition's reset clocks. -/
def applyTransition (t : Transition S L) (symbol : S) (time : Time)
    (path : Path S L) : Path S L :=
  { sequence := path.sequence ++ [(symbol, time, t.target)]
    clock_valuations := fun name =>
      if name ∈ t.clock_resets then 0 else path.clock_valuations name
    current_location := t.target
    tick := path.tick }

/-- Advancing all clocks of a path by the difference to the given absolute
time and updating the tick (`ta.h:234-237`). -/
def advancePath (path : Path S L) (time : Time) : Path S L :=
  { path with
    clock_valuations := fun name =>
      path.clock_valuations name + (time - path.tick)
    tick := time }

/-- The loop of `make_transition` (`ta.h:240-254`): repeatedly `find_if` the
next enabled transition in the equal range and apply it, *mutating the
path as it goes* — each further enabled transition is applied to the path
already modified by the previous ones (new location in the sequence,
resets applied to the clock valuations).  The inserted paths carry
strictly growing sequences, so the `std::set` keeps them in insertion
order. -/
def transitionLoop [DecidableEq S] (symbol : S) (time : Time) :
    List (Transition S L) → Path S L → List (Path S L)
  | [], _ => []
  | t :: rest, path =>
    if t.is_enabled symbol path.clock_valuations then
      applyTransition t symbol time path ::
        transitionLoop symbol time rest (applyTransition t symbol time path)
    else transitionLoop symbol time rest path

/-- `TimedAutomaton::make_transition` (`ta.h:228-256`): if the absolute time
of the symbol is in the past of the path, the empty set is returned (and
nothing else happens — in particular no exception); otherwise all clocks
are advanced by the time difference, the tick is updated, and the
transition loop runs over the equal range of the current location. -/
def make_transition [DecidableEq S] [DecidableEq L]
    (ta : TimedAutomaton S L) (path : Path S L) (symbol : S) (time : Time) :
    List (Path S L) :=
  if path.tick > time then []
  else
    transitionLoop symbol time
      (equalRange ta.transitions (advancePath path time).current_location)
      (advancePath path time)

/-- `std::tuple` comparison of one `(symbol, time, location)` step of a path
sequence. -/
def entryLt [LinearOrder S] [LinearOrder L] (x y : S × Time × L) : Bool :=
  if decide (x.1 < y.1) then true
  else if decide (y.1 < x.1) then false
  else if decide (x.2.1 < y.2.1) then true
  else if decide (y.2.1 < x.2.1) then false
  else decide (x.2.2 < y.2.2)

/-- `std::vector` lexicographic comparison of path sequences: `operator<` on
`Path` (`ta.h:109-113`) compares only the `sequence_` members. -/
def seqLt [LinearOrder S] [LinearOrder L] :
    List (S × Time × L) → List (S × Time × L) → Bool
  | _, [] => false
  | [], _ :: _ => true
  | x :: xs, y :: ys =>
    if entryLt x y then true
    else if entryLt y x then false
    else seqLt xs ys

/-- `std::set<Path>::insert`: ordered duplicate-free insertion with the
sequence as the key (paths with equal sequences are equivalent for the
set; the already present path is kept). -/
def pathInsert [LinearOrder S] [LinearOrder L] (p : Path S L) :
    List (Path S L) → List (Path S L)
  | [] => [p]
  | q :: rest =>
    if seqLt p.sequence q.sequence then p :: q :: rest
    else if seqLt q.sequence p.sequence then q :: pathInsert p rest
    else q :: rest

/-- `res_paths.insert(std::begin(new_paths), std::end(new_paths))`
(`ta.h:270`). -/
def pathInsertAll [LinearOrder S] [LinearOrder L] (ps : List (Path S L))
    (s : List (Path S L)) : List (Path S L) :=
  ps.foldl (fun acc p => pathInsert p acc) s

/-- The loop of `accepts_word` (`ta.h:265-283`): fold the word over the
current path set; if the path set becomes empty the word is rejected
immediately, and at the end the word is accepted iff some surviving path
sits in a final location. -/
def acceptsFrom [LinearOrder S] [LinearOrder L] (ta : TimedAutomaton S L)
    (paths : List (Path S L)) : List (S × Time) → Bool
  | [] => paths.any (fun p => decide (p.current_location ∈ ta.final_locations))
  | (symbol, time) :: rest =>
    let res := paths.foldl
      (fun acc p => pathInsertAll (make_transition ta p symbol time) acc) []
    if res.isEmpty then false else acceptsFrom ta res rest

/-- `TimedAutomaton::accepts_word` (`ta.h:262-283`): forward simulation from
the single initial path. -/
def accepts_word [LinearOrder S] [LinearOrder L] (ta : TimedAutomaton S L)
    (word : List (S × Time)) : Bool :=
  acceptsFrom ta [Path.mk' ta.initial_location] word

end TimedAutomaton

/-- `get_product` (`ta_product.hpp:31-83`).  Synchronized actions are not
implemented: a non-empty synchronization set throws
`NotImplementedException` before anything is built.  Otherwise the product
has the pairs of component locations as locations, the union of the
alphabets, the union of the clock sets, and one family of interleaving
transitions per component (the moving component steps, the other stays
put).  The product location type is the lexicographic pair, matching the
`std::tuple` ordering of `Location<std::tuple<LocationT1, LocationT2>>`. -/
def get_product {S L₁ L₂ : Type} [LinearOrder S] [LinearOrder L₁]
    [LinearOrder L₂] [DecidableEq S]
    (ta1 : TimedAutomaton S L₁) (ta2 : TimedAutomaton S L₂)
    (synchronized_actions : List S) :
    Except (TaException (Lex (L₁ × L₂))) (TimedAutomaton S (Lex (L₁ × L₂))) :=
  if ¬synchronized_actions.isEmpty then .error .notImplemented
  else
    let final_locations :=
      (ta1.final_locations.flatMap
        (fun l1 => ta2.final_locations.map (fun l2 => toLex (l1, l2)))).foldl
        (fun acc l => setInsert l acc) []
    let alphabet := (ta1.alphabet ++ ta2.alphabet).foldl
      (fun acc a => setInsert a acc) []
    let base := TimedAutomaton.mk' alphabet
      (toLex (ta1.initial_location, ta2.initial_location)) final_locations
    let withLocations :=
      (ta1.locations.flatMap
        (fun l1 => ta2.locations.map (fun l2 => toLex (l1, l2)))).foldl
        (fun ta l => ta.add_location l) base
    let withClocks := (ta1.clocks ++ ta2.clocks).foldl
      (fun ta c => ta.add_clock c) withLocations
    let family1 := ta1.transitions.flatMap
      (fun e => ta2.locations.map
        (fun l2 => Transition.mk (toLex (e.1, l2)) (toLex (e.2.target, l2))
          e.2.symbol e.2.clock_constraints e.2.clock_resets))
    let family2 := ta2.transitions.flatMap
      (fun e => ta1.locations.map
        (fun l1 => Transition.mk (toLex (l1, e.1)) (toLex (l1, e.2.target))
          e.2.symbol e.2.clock_constraints e.2.clock_resets))
    do
      let res1 ← family1.foldlM (fun ta t => ta.add_transition t) withClocks
      let res2 ← family2.foldlM (fun ta t => ta.add_transition t) res1
      .ok res2

/-- The normal form of `get_product ta1 ta2 []` for well-formed components:
the same construction with the (always succeeding, under well-formedness)
`add_transition` folds replaced by plain multimap-insertion folds, written
as one flat record.  `get_product_eq` below proves the two agree. -/
def productTA {S L₁ L₂ : Type} [LinearOrder S] [LinearOrder L₁]
    [LinearOrder L₂] (ta1 : TimedAutomaton S L₁) (ta2 : TimedAutomaton S L₂) :
    TimedAutomaton S (Lex (L₁ × L₂)) :=
  { locations :=
      ((ta1.locations.flatMap
        (fun l1 => ta2.locations.map (fun l2 => toLex (l1, l2)))).foldl
        (fun acc l => setInsert l acc)
        (((ta1.final_locations.flatMap
          (fun l1 => ta2.final_locations.map (fun l2 => toLex (l1, l2)))).foldl
          (fun acc l => setInsert l acc) []).foldl
          (fun ls l => setInsert l ls)
          [toLex (ta1.initial_location, ta2.initial_location)]))
    alphabet :=
      ((ta1.alphabet ++ ta2.alphabet).foldl (fun acc a => setInsert a acc) [])
    initial_location := toLex (ta1.initial_location, ta2.initial_location)
    final_locations :=
      ((ta1.final_locations.flatMap
        (fun l1 => ta2.final_locations.map (fun l2 => toLex (l1, l2)))).foldl
        (fun acc l => setInsert l acc) [])
    clocks :=
      ((ta1.clocks ++ ta2.clocks).foldl
        (fun cs n => if n ∈ cs then cs else cs ++ [n]) [])
    transitions :=
      ((ta2.transitions.flatMap
        (fun e => ta1.locations.map
          (fun l1 => Transition.mk (toLex (l1, e.1)) (toLex (l1, e.2.target))
            e.2.symbol e.2.clock_constraints e.2.clock_resets))).foldl
        (fun m t => multimapInsert m t.source t)
        ((ta1.transitions.flatMap
          (fun e => ta2.locations.map
            (fun l2 => Transition.mk (toLex (e.1, l2)) (toLex (e.2.target, l2))
              e.2.symbol e.2.clock_constraints e.2.clock_resets))).foldl
          (fun m t => multimapInsert m t.source t) [])) }

end ta
end automata

namespace tacos
namespace search

/-- The process-wide state of the Golog environment
(`golog_program.cpp:31`, `bool GologProgram::initialized`), together with
the number of `GologProgram` instances currently alive.  The external
`gologpp`/ReadyLog machinery behind construction is abstracted into the
single observable that decides the remaining control flow of the
constructor: whether the parsed program has a `main` procedure. -/
structure GologEnv : Type where
  alive : ℕ
  isInit : Bool
deriving DecidableEq, Repr

/-- The errors surfaced by `GologProgram::GologProgram`
(`golog_program.cpp:33-47`): a `std::runtime_error` when the environment
is already initialized, a `std::invalid_argument` when the program has no
`main` procedure. -/
inductive GologError : Type where
  | alreadyInit
  | noMainProcedure
deriving DecidableEq, Repr

/-- `GologProgram::GologProgram` (`golog_program.cpp:33-77`): if the
environment is already initialized the constructor throws before touching
anything (the environment is unchanged and no initialization is
performed).  Otherwise the flag is set *first*; a program without a `main`
procedure then throws with the flag left set (no instance comes alive),
and a well-formed program completes construction, so one more instance is
alive. -/
def gologConstruct (env : GologEnv) (hasMainProcedure : Bool) :
    GologEnv × Except GologError Unit :=
  if env.isInit then (env, .error .alreadyInit)
  else if hasMainProcedure then
    ({ alive := env.alive + 1, isInit := true }, .ok ())
  else ({ env with isInit := true }, .error .noMainProcedure)

/-- `GologProgram::~GologProgram` (`golog_program.cpp:109-115`): the
destructor of a live instance shuts the context down and clears the
`initialized` flag, releasing the exclusive handle. -/
def gologDestroy (env : GologEnv) : GologEnv :=
  if env.alive = 0 then env else { alive := env.alive - 1, isInit := false }

/-- The operations a client can perform on the Golog environment. -/
inductive GologOp : Type where
  | construct (hasMainProcedure : Bool)
  | destroy
deriving DecidableEq, Repr

/-- One step of the Golog-environment lifecycle. -/
def gologStep (env : GologEnv) : GologOp → GologEnv
  | .construct hasMain => (gologConstruct env hasMain).1
  | .destroy => gologDestroy env

/-- The environment reached from process start (no instance alive, flag
clear) by a sequence of constructions and destructions. -/
def gologRun (ops : List GologOp) : GologEnv :=
  ops.foldl gologStep ⟨0, false⟩

end search
end tacos

/-!
Specification-side definitions used to state the claims, and the concrete
automata used by counterexamples and witnesses.
-/

namespace automata
namespace ata

variable {S L : Type}

/-- The `min⊆` operator of §4.C of the specification: the elements of a
collection of models that do not strictly contain another element. -/
def minimalSubsets [DecidableEq L] (ms : List (Configuration L)) :
    List (Configuration L) :=
  ms.filter (fun m => !(ms.any (fun m₂ => m₂.toFinset ⊂ m.toFinset)))

/-- The models of the *disjunction* `⋁_{(q,v)∈C} Δ(q, a)[with v]` named by
§4.C's run semantics: each transition formula evaluated with the clock
value of its state, combined disjunctively (so a model of any disjunct is
a model), then restricted to the ⊆-minimal ones. -/
def AlternatingTimedAutomaton.disjunctionStepModels [DecidableEq S]
    [DecidableEq L] (A : AlternatingTimedAutomaton S L)
    (C : Configuration L) (a : S) : List (Configuration L) :=
  minimalSubsets (C.flatMap
    (fun s =>
      match A.findTransition s.1 a with
      | some t => t.formula.get_minimal_models s.2
      | none => []))

/-- `ChoiceUnion ms M` holds when `M` is the union of one model chosen from
each entry of `ms` — the conjunctive combination of the per-state model
sets, i.e. a model of `⋀_{(q,v)∈C} Δ(q, a)[with v]` as computed by the
cartesian product in `make_symbol_transition`. -/
def ChoiceUnion [DecidableEq L] :
    List (List (Configuration L)) → Finset (State L) → Prop
  | [], M => M = ∅
  | ms :: rest, M => ∃ c ∈ ms, ∃ M₂, ChoiceUnion rest M₂ ∧ M = c.toFinset ∪ M₂

/-- No two consecutive steps of a run have the same kind (symbol/time). -/
def alternatingSteps : Run S L → Bool
  | [] => true
  | [_] => true
  | x :: y :: rest => (x.1.isLeft != y.1.isLeft) && alternatingSteps (y :: rest)

/-- The exact condition under which `make_symbol_transition` throws
`WrongTransitionTypeException`: scanning the runs in order, a run ending
with a symbol step is reached before any run whose start states have no
matching transition (the latter makes the call return the empty vector
instead). -/
def AlternatingTimedAutomaton.symbolStepThrows [DecidableEq S]
    [DecidableEq L] (A : AlternatingTimedAutomaton S L) (a : S) :
    List (Run S L) → Bool
  | [] => false
  | run :: rest =>
    if endsWithSymbol run then true
    else if (A.modelsOf (A.startStates run) a).isEmpty then false
    else A.symbolStepThrows a rest

/-- The ATA of the C1 counterexample: two active locations `10` and `11`,
whose transitions on symbol `1` demand locations `20` and `21`
respectively. -/
def ataConj : AlternatingTimedAutomaton ℕ ℕ :=
  ⟨[1], 10, [], [⟨10, 1, .loc 20⟩, ⟨11, 1, .loc 21⟩]⟩

/-- A run of `ataConj` ending with a time step in the configuration
`{(10, 0), (11, 0)}`. -/
def runConj : Run ℕ ℕ := [(Sum.inr 0, [(10, 0), (11, 0)])]

/-- An ATA without any transition (used to exhibit the early empty return of
`make_symbol_transition`). -/
def ataNoTransitions : AlternatingTimedAutomaton ℕ ℕ := ⟨[1], 10, [], []⟩

/-- An ATA whose initial location is also final (for the empty-word claim). -/
def ataFinalInit : AlternatingTimedAutomaton ℕ ℕ := ⟨[1], 10, [10], []⟩

end ata

namespace ta

variable {S L : Type}

/-- The step the claim describes (`step(config, symbol, δ)` of §4.B): all
enabled outcomes, one per transition from the current location whose
symbol matches and whose constraints hold under the advanced valuation,
each applied to the *common* advanced pre-transition state. -/
def TimedAutomaton.stepAllEnabled [DecidableEq S] [DecidableEq L]
    (ta : TimedAutomaton S L) (path : Path S L) (symbol : S) (time : Time) :
    List (Path S L) :=
  if path.tick > time then []
  else
    ((equalRange ta.transitions (advancePath path time).current_location).filter
      (fun t => t.is_enabled symbol (advancePath path time).clock_valuations)).map
      (fun t => applyTransition t symbol time (advancePath path time))

/-- The invariant maintained by `add_transition`: every stored transition is
keyed by its source, mentions only known locations, and all its guard and
reset clocks are known clocks; initial and final locations are known. -/
def TimedAutomaton.WellFormed (ta : TimedAutomaton S L) : Prop :=
  ta.initial_location ∈ ta.locations ∧
  (∀ l ∈ ta.final_locations, l ∈ ta.locations) ∧
  ∀ e ∈ ta.transitions,
    e.2.source = e.1 ∧ e.1 ∈ ta.locations ∧ e.2.target ∈ ta.locations ∧
    (∀ g ∈ e.2.clock_constraints, g.1 ∈ ta.clocks) ∧
    (∀ c ∈ e.2.clock_resets, c ∈ ta.clocks)

/-- The trivial single-location TA of the idempotent-product claim: one
location, final, no clocks, no transitions. -/
def trivialTimedAutomaton (S : Type) : TimedAutomaton S Unit :=
  TimedAutomaton.mk' [] () [()]

/-- The embedding of a component location into the location type of its
product with the trivial TA. -/
def liftLocation (l : L) : Lex (L × Unit) := toLex (l, ())

/-- `liftLocation` applied to one step of a path sequence. -/
def liftEntry (e : S × Time × L) : S × Time × Lex (L × Unit) :=
  (e.1, e.2.1, liftLocation e.2.2)

/-- `liftLocation` applied to a whole path. -/
def liftPath (p : Path S L) : Path S (Lex (L × Unit)) :=
  { sequence := p.sequence.map liftEntry
    clock_valuations := p.clock_valuations
    current_location := liftLocation p.current_location
    tick := p.tick }

/-- The transition the product construction builds from a transition stored
under key `l` when the second component is the trivial TA. -/
def liftTransition (l : L) (tr : Transition S L) :
    Transition S (Lex (L × Unit)) :=
  ⟨liftLocation l, liftLocation tr.target, tr.symbol, tr.clock_constraints,
    tr.clock_resets⟩

/-- A TA with two transitions from location `0` that are enabled on the same
symbol `7` (the non-deterministic situation of the C2 counterexample). -/
def taTwoEnabled : TimedAutomaton ℕ ℕ :=
  { locations := [0, 1, 2], alphabet := [7], initial_location := 0,
    final_locations := [1], clocks := [],
    transitions := [(0, ⟨0, 1, 7, [], []⟩), (0, ⟨0, 2, 7, [], []⟩)] }

/-- A deterministic TA: a single transition from `0` on symbol `7`. -/
def taOneEnabled : TimedAutomaton ℕ ℕ :=
  { locations := [0, 1], alphabet := [7], initial_location := 0,
    final_locations := [1], clocks := [],
    transitions := [(0, ⟨0, 1, 7, [], []⟩)] }

/-- A TA knowing locations `0, 1` and no clocks (for the validation
counterexample). -/
def taNoClocks : TimedAutomaton ℕ ℕ :=
  { locations := [0, 1], alphabet := [7], initial_location := 0,
    final_locations := [1], clocks := [], transitions := [] }

/-- A transition whose source `2` is unknown to `taNoClocks` *and* whose
guard mentions the unknown clock `x`. -/
def trBadBoth : Transition ℕ ℕ := ⟨2, 0, 7, [("x", .lt 1)], []⟩

/-- A small well-formed TA with one guarded, resetting transition. -/
def taSmall : TimedAutomaton ℕ ℕ :=
  { locations := [0, 1], alphabet := [7], initial_location := 0,
    final_locations := [1], clocks := ["x"],
    transitions := [(0, ⟨0, 1, 7, [("x", .le 2)], ["x"]⟩)] }

/-- A second small well-formed TA on a disjoint alphabet and clock set. -/
def taSmall₂ : TimedAutomaton ℕ ℕ :=
  { locations := [5], alphabet := [8], initial_location := 5,
    final_locations := [5], clocks := ["y"],
    transitions := [(5, ⟨5, 5, 8, [], ["y"]⟩)] }

end ta
end automata


/-!
Theorems.  Helper lemmas come first, inside the namespaces of the
definitions they concern; the claim theorems follow at top level.
-/

namespace automata
namespace ata

variable {S L : Type}

theorem is_satisfied_mono [DecidableEq L] (φ : Formula L) :
    ∀ (C C' : Configuration L) (v : ClockValuation),
      (∀ x, x ∈ C → x ∈ C') → φ.is_satisfied C v = true →
      φ.is_satisfied C' v = true := by
  induction φ with
  | tt => intro C C' v _ _; rfl
  | ff => intro C C' v _ h; exact h
  | loc l =>
    intro C C' v hsub h
    simp only [Formula.is_satisfied, decide_eq_true_eq] at h ⊢
    exact hsub _ h
  | constraint c => intro C C' v _ h; exact h
  | and φ ψ ihφ ihψ =>
    intro C C' v hsub h
    simp only [Formula.is_satisfied, Bool.and_eq_true] at h ⊢
    exact ⟨ihφ C C' v hsub h.1, ihψ C C' v hsub h.2⟩
  | or φ ψ ihφ ihψ =>
    intro C C' v hsub h
    simp only [Formula.is_satisfied, Bool.or_eq_true] at h ⊢
    rcases h with h | h
    · exact Or.inl (ihφ C C' v hsub h)
    · exact Or.inr (ihψ C C' v hsub h)
  | reset φ ih =>
    intro C C' v hsub h
    exact ih C C' 0 hsub h

theorem mem_minimal_models_sat [DecidableEq L] (φ : Formula L) :
    ∀ (v : ClockValuation) (m : Configuration L),
      m ∈ φ.get_minimal_models v → φ.is_satisfied m v = true := by
  induction φ with
  | tt => intro v m hm; rfl
  | ff => intro v m hm; simp [Formula.get_minimal_models] at hm
  | loc l =>
    intro v m hm
    simp only [Formula.get_minimal_models, List.mem_singleton] at hm
    subst hm
    simp [Formula.is_satisfied]
  | constraint c =>
    intro v m hm
    simp only [Formula.get_minimal_models] at hm
    simp only [Formula.is_satisfied]
    split at hm
    · assumption
    · simp at hm
  | and φ ψ ihφ ihψ =>
    intro v m hm
    simp only [Formula.get_minimal_models, List.mem_filter] at hm
    obtain ⟨hmem, -⟩ := hm
    simp only [List.mem_flatMap, List.mem_map] at hmem
    obtain ⟨a, ha, b, hb, rfl⟩ := hmem
    simp only [Formula.is_satisfied, Bool.and_eq_true]
    constructor
    · exact is_satisfied_mono φ a (a ++ b) v
        (fun x hx => List.mem_append_left _ hx) (ihφ v a ha)
    · exact is_satisfied_mono ψ b (a ++ b) v
        (fun x hx => List.mem_append_right _ hx) (ihψ v b hb)
  | or φ ψ ihφ ihψ =>
    intro v m hm
    simp only [Formula.get_minimal_models, List.mem_append] at hm
    simp only [Formula.is_satisfied, Bool.or_eq_true]
    rcases hm with hm | hm
    · exact Or.inl (ihφ v m hm)
    · exact Or.inr (ihψ v m hm)
  | reset φ ih =>
    intro v m hm
    exact ih 0 m hm

end ata
end automata

namespace tacos
namespace search

/-- The lifecycle invariant: at most one instance is alive, and a live
instance implies the initialized flag is set. -/
theorem gologRun_invariant (ops : List GologOp) :
    (gologRun ops).alive ≤ 1 ∧
    ((gologRun ops).alive = 1 → (gologRun ops).isInit = true) := by
  suffices h : ∀ (ops : List GologOp) (env : GologEnv),
      env.alive ≤ 1 → (env.alive = 1 → env.isInit = true) →
      (ops.foldl gologStep env).alive ≤ 1 ∧
      ((ops.foldl gologStep env).alive = 1 →
        (ops.foldl gologStep env).isInit = true) by
    exact h ops ⟨0, false⟩ (by simp) (by simp)
  intro ops
  induction ops with
  | nil => intro env h1 h2; exact ⟨h1, h2⟩
  | cons op rest ih =>
    intro env h1 h2
    refine ih (gologStep env op) ?_ ?_
    · cases op with
      | construct hasMain =>
        simp only [gologStep, gologConstruct]
        split
        · exact h1
        · split <;> simp_all
          omega
      | destroy =>
        simp only [gologStep, gologDestroy]
        split
        · exact h1
        · simp
          omega
    · cases op with
      | construct hasMain =>
        simp only [gologStep, gologConstruct]
        split
        · exact h2
        · split <;> simp_all
      | destroy =>
        simp only [gologStep, gologDestroy]
        split
        · exact h2
        · simp
          omega

end search
end tacos

/-- C9: for every ATA, `accepts_word` returns `false` on the empty timed
word — in particular also when the initial location is final (witnessed by
the concrete `ataFinalInit`, whose initial location `10` is final). -/
theorem c9_empty_word_rejected {S L : Type} [DecidableEq S] [DecidableEq L] :
    (∀ A : automata.ata.AlternatingTimedAutomaton S L,
      A.accepts_word [] = .ok false) ∧
    (automata.ata.ataFinalInit.initial_location ∈
        automata.ata.ataFinalInit.final_locations ∧
      automata.ata.ataFinalInit.accepts_word [] = .ok false) :=
  ⟨fun _ => rfl, by decide, rfl⟩

/-- C3 (amended): the models returned for a disjunction are the plain union
(list concatenation) of the models of the disjuncts — no ⊆-minimality
filter is applied — and every returned model does satisfy the
disjunction. -/
theorem c3_or_models_union {L : Type} [DecidableEq L] (φ ψ : automata.ata.Formula L)
    (v : automata.ClockValuation) :
    (automata.ata.Formula.or φ ψ).get_minimal_models v =
      φ.get_minimal_models v ++ ψ.get_minimal_models v ∧
    ∀ m ∈ (automata.ata.Formula.or φ ψ).get_minimal_models v,
      (automata.ata.Formula.or φ ψ).is_satisfied m v = true :=
  ⟨rfl, fun m hm => automata.ata.mem_minimal_models_sat _ v m hm⟩

/-- C3 witness: the amended claim at `φ = Loc 0`, `ψ = True`, `v = 0`,
`m = {(0, 0)}`. -/
theorem c3_witness :
    (automata.ata.Formula.or (automata.ata.Formula.loc 0)
        (automata.ata.Formula.tt : automata.ata.Formula ℕ)).get_minimal_models 0 =
      (automata.ata.Formula.loc 0 : automata.ata.Formula ℕ).get_minimal_models 0 ++
      (automata.ata.Formula.tt : automata.ata.Formula ℕ).get_minimal_models 0 ∧
    (automata.ata.Formula.or (automata.ata.Formula.loc 0)
        (automata.ata.Formula.tt : automata.ata.Formula ℕ)).is_satisfied
      [(0, 0)] 0 = true :=
  ⟨(c3_or_models_union (automata.ata.Formula.loc 0) automata.ata.Formula.tt 0).1,
   (c3_or_models_union (automata.ata.Formula.loc 0) automata.ata.Formula.tt 0).2
     [(0, 0)] (by decide)⟩

/-- C3 counterexample: at `φ = Loc 0`, `ψ = True`, `v = 0` the code's
disjunction models are `{{(0,0)}, {}}` — the plain union — whereas the
⊆-minimal elements of the union are just `{{}}`; in particular the
returned model `{(0,0)}` is a strict superset of the returned model
`{}`. -/
theorem c3_counterexample :
    (automata.ata.Formula.or (automata.ata.Formula.loc 0)
        (automata.ata.Formula.tt : automata.ata.Formula ℕ)).get_minimal_models 0 =
      [[(0, 0)], []] ∧
    automata.ata.minimalSubsets
        ((automata.ata.Formula.loc 0 : automata.ata.Formula ℕ).get_minimal_models 0 ++
          (automata.ata.Formula.tt : automata.ata.Formula ℕ).get_minimal_models 0) =
      [[]] ∧
    ([] : automata.ata.Configuration ℕ).toFinset ⊂
      ([(0, 0)] : automata.ata.Configuration ℕ).toFinset := by
  refine ⟨rfl, by decide, by decide⟩

/-- C8: in every reachable state of the Golog environment at most one
`GologProgram` instance is alive; while one is alive any construction
attempt fails with the already-initialized error and leaves the
environment unchanged (no initialization is performed); and after the
live instance is destroyed a construction (of a program with a `main`
procedure) succeeds again. -/
theorem c8_exclusive_lifecycle (ops : List tacos.search.GologOp) :
    (tacos.search.gologRun ops).alive ≤ 1 ∧
    ((tacos.search.gologRun ops).alive = 1 →
      ∀ hasMain, tacos.search.gologConstruct (tacos.search.gologRun ops) hasMain =
        (tacos.search.gologRun ops, .error .alreadyInit)) ∧
    ((tacos.search.gologRun ops).alive = 1 →
      tacos.search.gologConstruct
          (tacos.search.gologDestroy (tacos.search.gologRun ops)) true =
        (⟨1, true⟩, .ok ())) := by
  obtain ⟨h1, h2⟩ := tacos.search.gologRun_invariant ops
  refine ⟨h1, ?_, ?_⟩
  · intro halive hasMain
    have hinit := h2 halive
    simp [tacos.search.gologConstruct, hinit]
  · intro halive
    have hinit := h2 halive
    simp [tacos.search.gologDestroy, halive, tacos.search.gologConstruct]

/-- C8 witness: the lifecycle facts at the concrete operation sequence that
constructs one instance. -/
theorem c8_witness :
    (tacos.search.gologRun [tacos.search.GologOp.construct true]).alive ≤ 1 ∧
    tacos.search.gologConstruct
        (tacos.search.gologRun [tacos.search.GologOp.construct true]) true =
      (tacos.search.gologRun [tacos.search.GologOp.construct true],
        .error .alreadyInit) ∧
    tacos.search.gologConstruct
        (tacos.search.gologDestroy
          (tacos.search.gologRun [tacos.search.GologOp.construct true])) true =
      (⟨1, true⟩, .ok ()) :=
  ⟨(c8_exclusive_lifecycle _).1,
   (c8_exclusive_lifecycle [tacos.search.GologOp.construct true]).2.1 (by decide) true,
   (c8_exclusive_lifecycle [tacos.search.GologOp.construct true]).2.2 (by decide)⟩

namespace automata
namespace ata

variable {S L : Type}

theorem combineModels_sound [DecidableEq L] :
    ∀ (rest : List (List (Configuration L))) (first : List (Configuration L))
      (c : Configuration L), c ∈ combineModels first rest →
      ∃ c₀ ∈ first, ∃ M, ChoiceUnion rest M ∧ c.toFinset = c₀.toFinset ∪ M := by
  intro rest
  induction rest with
  | nil =>
    intro first c hc
    exact ⟨c, hc, ∅, rfl, by simp⟩
  | cons sms rest ih =>
    intro first c hc
    have hc' : c ∈ combineModels
        (sms.flatMap (fun sm => first.map (fun c₀ => c₀ ++ sm))) rest := hc
    obtain ⟨c₀', hc₀', M, hM, hfin⟩ := ih _ c hc'
    simp only [List.mem_flatMap, List.mem_map] at hc₀'
    obtain ⟨sm, hsm, c₀, hc₀, rfl⟩ := hc₀'
    refine ⟨c₀, hc₀, sm.toFinset ∪ M, ⟨sm, hsm, M, hM, rfl⟩, ?_⟩
    rw [hfin]
    simp [Finset.union_assoc]

theorem combineModels_complete [DecidableEq L] :
    ∀ (rest : List (List (Configuration L))) (first : List (Configuration L))
      (c₀ : Configuration L) (M : Finset (State L)),
      c₀ ∈ first → ChoiceUnion rest M →
      ∃ c ∈ combineModels first rest, c.toFinset = c₀.toFinset ∪ M := by
  intro rest
  induction rest with
  | nil =>
    intro first c₀ M hc₀ hM
    cases hM
    exact ⟨c₀, hc₀, by simp⟩
  | cons sms rest ih =>
    intro first c₀ M hc₀ hM
    obtain ⟨sm, hsm, M₂, hM₂, rfl⟩ := hM
    have hmem : c₀ ++ sm ∈ sms.flatMap (fun sm => first.map (fun c => c ++ sm)) := by
      simp only [List.mem_flatMap, List.mem_map]
      exact ⟨sm, hsm, c₀, hc₀, rfl⟩
    obtain ⟨c, hc, hfin⟩ := ih _ (c₀ ++ sm) M₂ hmem hM₂
    refine ⟨c, hc, ?_⟩
    rw [hfin]
    simp [Finset.union_assoc]

theorem make_symbol_transition_single [DecidableEq S] [DecidableEq L]
    (A : AlternatingTimedAutomaton S L) (run : Run S L) (a : S)
    (halt : endsWithSymbol run = false)
    (m₀ : List (Configuration L)) (ms : List (List (Configuration L)))
    (hmodels : A.modelsOf (A.startStates run) a = m₀ :: ms) :
    A.make_symbol_transition [run] a =
      .ok ((combineModels m₀ ms).map (fun c => run ++ [(Sum.inl a, c)])) := by
  unfold AlternatingTimedAutomaton.make_symbol_transition
  unfold AlternatingTimedAutomaton.symbolStepAux
  rw [halt, hmodels]
  simp [AlternatingTimedAutomaton.symbolStepAux]

theorem make_time_transition_single [DecidableEq S] [DecidableEq L]
    (A : AlternatingTimedAutomaton S L) (run : Run S L) (delta : Time)
    (hδ : 0 ≤ delta) (hend : endsWithSymbol run = true) :
    A.make_time_transition [run] delta =
      .ok [run ++ [(Sum.inr delta,
        (A.startStates run).map (fun s => (s.1, s.2 + delta)))]] := by
  obtain ⟨x, cfg, hlast⟩ : ∃ x cfg, run.getLast? = some (Sum.inl x, cfg) := by
    unfold endsWithSymbol at hend
    rcases h : run.getLast? with - | ⟨⟨s | t, cfg⟩⟩
    · rw [h] at hend; simp at hend
    · exact ⟨s, cfg, rfl⟩
    · rw [h] at hend; simp at hend
  unfold AlternatingTimedAutomaton.make_time_transition
  rw [if_neg (not_lt.mpr hδ)]
  unfold AlternatingTimedAutomaton.timeStepAux
  rw [hlast]
  simp [AlternatingTimedAutomaton.timeStepAux,
    AlternatingTimedAutomaton.startStates, hlast, Except.map]

end ata
end automata

/-- C1 (amended): a symbol step of a well-formed run (one not ending in a
symbol step, whose configuration has at least one state with a matching
transition) extends the run by one configuration for exactly the
*conjunctive* combinations of the per-state minimal models — the unions
of one minimal model of `Δ(q, a)` (evaluated at the clock value of its
state) per state with a matching transition — not the models of their
disjunction; and a time step appends the delta to every clock of every
state of the last configuration. -/
theorem c1_symbol_and_time_steps {S L : Type} [DecidableEq S] [DecidableEq L]
    (A : automata.ata.AlternatingTimedAutomaton S L)
    (run : automata.ata.Run S L) (a : S) :
    (automata.ata.endsWithSymbol run = false →
      A.modelsOf (A.startStates run) a ≠ [] →
      ∃ l, A.make_symbol_transition [run] a = .ok l ∧
        (∀ r ∈ l, ∃ c, r = run ++ [(Sum.inl a, c)] ∧
          automata.ata.ChoiceUnion (A.modelsOf (A.startStates run) a)
            c.toFinset) ∧
        (∀ M, automata.ata.ChoiceUnion (A.modelsOf (A.startStates run) a) M →
          ∃ r ∈ l, ∃ c, r = run ++ [(Sum.inl a, c)] ∧ c.toFinset = M)) ∧
    (∀ delta : automata.Time, 0 ≤ delta →
      automata.ata.endsWithSymbol run = true →
      A.make_time_transition [run] delta =
        .ok [run ++ [(Sum.inr delta,
          (A.startStates run).map (fun s => (s.1, s.2 + delta)))]]) := by
  constructor
  · intro halt hne
    rcases hmodels : A.modelsOf (A.startStates run) a with - | ⟨m₀, ms⟩
    · exact absurd hmodels hne
    refine ⟨(automata.ata.combineModels m₀ ms).map
        (fun c => run ++ [(Sum.inl a, c)]),
      automata.ata.make_symbol_transition_single A run a halt m₀ ms hmodels,
      ?_, ?_⟩
    · intro r hr
      simp only [List.mem_map] at hr
      obtain ⟨c, hc, rfl⟩ := hr
      obtain ⟨c₀, hc₀, M, hM, hfin⟩ :=
        automata.ata.combineModels_sound ms m₀ c hc
      exact ⟨c, rfl, ⟨c₀, hc₀, M, hM, hfin⟩⟩
    · intro M hM
      obtain ⟨c₀, hc₀, M₂, hM₂, rfl⟩ := hM
      obtain ⟨c, hc, hfin⟩ :=
        automata.ata.combineModels_complete ms m₀ c₀ M₂ hc₀ hM₂
      exact ⟨run ++ [(Sum.inl a, c)], List.mem_map_of_mem _ hc, c, rfl, hfin⟩
  · intro delta hδ hend
    exact automata.ata.make_time_transition_single A run delta hδ hend

/-- C1 witness: the amended claim evaluated on `ataConj` — the symbol
conjunct on the run `runConj` (which ends with a time step), the time
conjunct on a run ending with a symbol step. -/
theorem c1_witness :
    (∃ l, automata.ata.ataConj.make_symbol_transition
        [automata.ata.runConj] 1 = .ok l ∧
      (∀ r ∈ l, ∃ c, r = automata.ata.runConj ++ [(Sum.inl 1, c)] ∧
        automata.ata.ChoiceUnion
          (automata.ata.ataConj.modelsOf
            (automata.ata.ataConj.startStates automata.ata.runConj) 1)
          c.toFinset) ∧
      (∀ M, automata.ata.ChoiceUnion
          (automata.ata.ataConj.modelsOf
            (automata.ata.ataConj.startStates automata.ata.runConj) 1) M →
        ∃ r ∈ l, ∃ c, r = automata.ata.runConj ++ [(Sum.inl 1, c)] ∧
          c.toFinset = M)) ∧
    automata.ata.ataConj.make_time_transition [[(Sum.inl 1, [(20, 0)])]] 1 =
      .ok [[(Sum.inl 1, [(20, 0)])] ++ [(Sum.inr 1,
        (automata.ata.ataConj.startStates [(Sum.inl 1, [(20, 0)])]).map
          (fun s => (s.1, s.2 + 1)))]] :=
  ⟨(c1_symbol_and_time_steps automata.ata.ataConj automata.ata.runConj 1).1
      (by decide) (by decide),
   (c1_symbol_and_time_steps automata.ata.ataConj
      [(Sum.inl 1, [(20, 0)])] 1).2 1 (by decide) (by decide)⟩

/-- C1 counterexample: from the configuration `{(10,0), (11,0)}` of `ataConj`
(reached by a run ending in a time step), the code's symbol step on `1`
produces the single configuration `{(20,0), (21,0)}` — the union demanded
by *both* states' transition formulas — which is not one of the minimal
models of the *disjunction* `Δ(10,1) ∨ Δ(11,1)` (those are `{(20,0)}` and
`{(21,0)}`). -/
theorem c1_counterexample :
    automata.ata.ataConj.make_symbol_transition [automata.ata.runConj] 1 =
      .ok [automata.ata.runConj ++ [(Sum.inl 1, [(20, 0), (21, 0)])]] ∧
    ([(20, 0), (21, 0)] : automata.ata.Configuration ℕ).toFinset ∉
      (automata.ata.ataConj.disjunctionStepModels [(10, 0), (11, 0)] 1).map
        (fun m => m.toFinset) := by
  exact ⟨rfl, by decide⟩


namespace automata
namespace ata

variable {S L : Type}

open AlternatingTimedAutomaton in
theorem symbolStepAux_error_iff [DecidableEq S] [DecidableEq L]
    (A : AlternatingTimedAutomaton S L) (a : S) :
    ∀ (runs : List (Run S L)) (acc : List (Run S L)) (e : AtaException),
      A.symbolStepAux a acc runs = .error e ↔
      (e = .wrongTransitionType ∧ A.symbolStepThrows a runs = true) := by
  intro runs
  induction runs with
  | nil =>
    intro acc e
    simp [symbolStepAux, symbolStepThrows]
  | cons run rest ih =>
    intro acc e
    unfold symbolStepAux symbolStepThrows
    rcases hsym : endsWithSymbol run with - | -
    · simp only [Bool.false_eq_true, if_false]
      rcases hmodels : A.modelsOf (A.startStates run) a with - | ⟨m₀, ms⟩
      · simp
      · simpa using ih _ e
    · simp only [if_true]
      constructor
      · intro h
        cases h
        exact ⟨rfl, trivial⟩
      · rintro ⟨he, -⟩
        rw [he]

open AlternatingTimedAutomaton in
theorem timeStepAux_no_negative {delta : Time} :
    ∀ (runs : List (Run S L)) (e : AtaException),
      timeStepAux delta runs = .error e → e = .wrongTransitionType := by
  intro runs
  induction runs with
  | nil => intro e h; simp [timeStepAux] at h
  | cons run rest ih =>
    intro e h
    unfold timeStepAux at h
    rcases hlast : run.getLast? with - | ⟨⟨s | t, cfg⟩⟩ <;> rw [hlast] at h
    · cases h; rfl
    · rcases htail : timeStepAux (S := S) (L := L) delta rest with e₂ | res <;>
        rw [htail] at h <;> simp [Except.map] at h
      · rw [← h]
        exact ih e₂ htail
    · cases h; rfl

open AlternatingTimedAutomaton in
theorem timeStepAux_error_iff {delta : Time} :
    ∀ runs : List (Run S L),
      timeStepAux delta runs = .error .wrongTransitionType ↔
      ∃ run ∈ runs, run = [] ∨ endsWithTime run = true := by
  intro runs
  induction runs with
  | nil => simp [timeStepAux]
  | cons run rest ih =>
    unfold timeStepAux
    rcases hlast : run.getLast? with - | ⟨⟨s | t, cfg⟩⟩
    · have hnil : run = [] := by
        rcases run with - | ⟨x, xs⟩
        · rfl
        · exact absurd hlast (by simp)
      simp [hnil]
    · have hne : run ≠ [] := by
        intro h
        rw [h] at hlast
        simp at hlast
      have hnt : endsWithTime run = false := by
        unfold endsWithTime
        rw [hlast]
      rcases htail : timeStepAux (S := S) (L := L) delta rest with e₂ | res
      · simp only [Except.map]
        constructor
        · intro h
          simp only [Except.error.injEq] at h
          subst h
          obtain ⟨r, hr, hor⟩ := ih.mp htail
          exact ⟨r, List.mem_cons_of_mem _ hr, hor⟩
        · rintro ⟨r, hr, hor⟩
          rcases List.mem_cons.mp hr with rfl | hr₂
          · rcases hor with rfl | hend
            · exact absurd rfl hne
            · rw [hnt] at hend; cases hend
          · have h₂ := ih.mpr ⟨r, hr₂, hor⟩
            rw [htail] at h₂
            exact h₂
      · simp only [Except.map]
        constructor
        · intro h
          simp at h
        · rintro ⟨r, hr, hor⟩
          rcases List.mem_cons.mp hr with rfl | hr₂
          · rcases hor with rfl | hend
            · exact absurd rfl hne
            · rw [hnt] at hend; cases hend
          · have h₂ := ih.mpr ⟨r, hr₂, hor⟩
            rw [htail] at h₂
            simp at h₂
    · have hend : endsWithTime run = true := by
        unfold endsWithTime
        rw [hlast]
      constructor
      · intro _
        exact ⟨run, List.mem_cons_self _ _, Or.inr hend⟩
      · intro _
        rfl

theorem alternatingSteps_append_single :
    ∀ (run : Run S L) (step : (S ⊕ Time) × Configuration L),
      alternatingSteps run = true →
      (∀ last ∈ run.getLast?, last.1.isLeft ≠ step.1.isLeft) →
      alternatingSteps (run ++ [step]) = true := by
  intro run
  induction run with
  | nil => intro step _ _; rfl
  | cons x xs ih =>
    intro step halt hlast
    cases xs with
    | nil =>
      have hx : x.1.isLeft ≠ step.1.isLeft := hlast x rfl
      show alternatingSteps (x :: [step]) = true
      unfold alternatingSteps
      simp only [Bool.and_eq_true, bne_iff_ne]
      exact ⟨hx, rfl⟩
    | cons y ys =>
      unfold alternatingSteps at halt
      simp only [Bool.and_eq_true] at halt
      obtain ⟨hxy, halt'⟩ := halt
      have hlast' : ∀ last ∈ (y :: ys).getLast?,
          last.1.isLeft ≠ step.1.isLeft := by
        intro last hmem
        refine hlast last ?_
        rw [List.getLast?_cons_cons]
        exact hmem
      have hrec := ih step halt' hlast'
      show alternatingSteps (x :: ((y :: ys) ++ [step])) = true
      rw [List.cons_append]
      unfold alternatingSteps
      simp only [Bool.and_eq_true]
      rw [List.cons_append] at hrec
      exact ⟨hxy, hrec⟩

end ata
end automata

namespace automata
namespace ata

variable {S L : Type}

theorem endsWithSymbol_false_last {run : Run S L}
    (h : endsWithSymbol run = false) :
    ∀ last ∈ run.getLast?, last.1.isLeft = false := by
  intro last hmem
  unfold endsWithSymbol at h
  rcases hlast : run.getLast? with - | ⟨⟨s | t, cfg⟩⟩ <;> rw [hlast] at h hmem
  · cases hmem
  · cases h
  · cases hmem
    rfl

theorem endsWithSymbol_true_last {run : Run S L}
    (h : endsWithSymbol run = true) :
    ∀ last ∈ run.getLast?, last.1.isLeft = true := by
  intro last hmem
  unfold endsWithSymbol at h
  rcases hlast : run.getLast? with - | ⟨⟨s | t, cfg⟩⟩ <;> rw [hlast] at h hmem
  · cases hmem
  · cases hmem
    rfl
  · cases h

open AlternatingTimedAutomaton in
theorem symbolStepAux_alternating [DecidableEq S] [DecidableEq L]
    (A : AlternatingTimedAutomaton S L) (a : S) :
    ∀ (runs acc l : List (Run S L)),
      (∀ r ∈ acc, alternatingSteps r = true) →
      (∀ r ∈ runs, alternatingSteps r = true) →
      A.symbolStepAux a acc runs = .ok l →
      ∀ r ∈ l, alternatingSteps r = true := by
  intro runs
  induction runs with
  | nil =>
    intro acc l hacc _ hok
    cases hok
    exact hacc
  | cons run rest ih =>
    intro acc l hacc hruns hok
    unfold symbolStepAux at hok
    rcases hsym : endsWithSymbol run with - | - <;> rw [hsym] at hok
    · simp only [Bool.false_eq_true, if_false] at hok
      rcases hmodels : A.modelsOf (A.startStates run) a with - | ⟨m₀, ms⟩ <;>
        rw [hmodels] at hok
      · cases hok
        intro r hr
        cases hr
      · refine ih _ l ?_ (fun r hr => hruns r (List.mem_cons_of_mem _ hr)) hok
        intro r hr
        rcases List.mem_append.mp hr with hr₁ | hr₂
        · exact hacc r hr₁
        · simp only [List.mem_map] at hr₂
          obtain ⟨c, -, rfl⟩ := hr₂
          refine alternatingSteps_append_single run (Sum.inl a, c)
            (hruns run (List.mem_cons_self _ _)) ?_
          intro last hmem
          rw [endsWithSymbol_false_last hsym last hmem]
          simp
    · simp only [if_true] at hok
      cases hok
end ata
end automata

namespace automata
namespace ata

variable {S L : Type}

open AlternatingTimedAutomaton in
theorem timeStepAux_alternating {delta : Time} :
    ∀ (runs l : List (Run S L)),
      (∀ r ∈ runs, alternatingSteps r = true) →
      timeStepAux delta runs = .ok l →
      ∀ r ∈ l, alternatingSteps r = true := by
  intro runs
  induction runs with
  | nil =>
    intro l _ hok
    cases hok
    intro r hr
    cases hr
  | cons run rest ih =>
    intro l hruns hok
    unfold timeStepAux at hok
    rcases hlast : run.getLast? with - | ⟨⟨s | t, cfg⟩⟩ <;> rw [hlast] at hok
    · cases hok
    · rcases htail : timeStepAux (S := S) (L := L) delta rest with e₂ | res <;>
        rw [htail] at hok <;> simp only [Except.map] at hok
      · cases hok
      · simp only [Except.ok.injEq] at hok
        subst hok
        intro r hr
        rcases List.mem_cons.mp hr with rfl | hr₂
        · refine alternatingSteps_append_single run _
            (hruns run (List.mem_cons_self _ _)) ?_
          intro last hmem
          have hsym : endsWithSymbol run = true := by
            unfold endsWithSymbol
            rw [hlast]
          rw [endsWithSymbol_true_last hsym last hmem]
          simp
        · exact ih res (fun r hr => hruns r (List.mem_cons_of_mem _ hr)) htail r hr₂
    · cases hok

end ata
end automata

/-- C4 (amended): `make_time_transition` throws `NegativeTimeDeltaException`
exactly when the delta is negative (that check comes first), and — for a
non-negative delta — `WrongTransitionTypeException` exactly when some run
is empty or ends with a time step.  `make_symbol_transition` throws
`WrongTransitionTypeException` exactly when, scanning the runs in order, a
run ending with a symbol step is reached before any run whose states have
no matching transition (such a run instead makes the call return the
empty set without error, which is what the counterexample exhibits).  Runs
produced by either operation never contain two consecutive steps of the
same kind. -/
theorem c4_alternation_and_errors {S L : Type} [DecidableEq S] [DecidableEq L]
    (A : automata.ata.AlternatingTimedAutomaton S L)
    (runs : List (automata.ata.Run S L)) (a : S) (delta : automata.Time) :
    (∀ e, A.make_symbol_transition runs a = .error e ↔
      (e = .wrongTransitionType ∧ A.symbolStepThrows a runs = true)) ∧
    (A.make_time_transition runs delta = .error (.negativeTimeDelta delta) ↔
      delta < 0) ∧
    (0 ≤ delta →
      (A.make_time_transition runs delta = .error .wrongTransitionType ↔
        ∃ run ∈ runs, run = [] ∨ automata.ata.endsWithTime run = true)) ∧
    ((∀ r ∈ runs, automata.ata.alternatingSteps r = true) →
      ∀ l, A.make_symbol_transition runs a = .ok l →
        ∀ r ∈ l, automata.ata.alternatingSteps r = true) ∧
    ((∀ r ∈ runs, automata.ata.alternatingSteps r = true) →
      ∀ l, A.make_time_transition runs delta = .ok l →
        ∀ r ∈ l, automata.ata.alternatingSteps r = true) := by
  refine ⟨?_, ?_, ?_, ?_, ?_⟩
  · intro e
    exact automata.ata.symbolStepAux_error_iff A a runs [] e
  · unfold automata.ata.AlternatingTimedAutomaton.make_time_transition
    split
    · simp only [Except.error.injEq, automata.ata.AtaException.negativeTimeDelta.injEq]
      constructor
      · intro _; assumption
      · intro _; trivial
    · constructor
      · intro h
        have := automata.ata.timeStepAux_no_negative runs _ h
        cases this
      · intro h
        exact absurd h (by assumption)
  · intro hδ
    unfold automata.ata.AlternatingTimedAutomaton.make_time_transition
    rw [if_neg (not_lt.mpr hδ)]
    exact automata.ata.timeStepAux_error_iff runs
  · intro hruns l hok
    exact automata.ata.symbolStepAux_alternating A a runs [] l
      (fun r hr => absurd hr (List.not_mem_nil r)) hruns hok
  · intro hruns l hok
    unfold automata.ata.AlternatingTimedAutomaton.make_time_transition at hok
    split at hok
    · cases hok
    · exact automata.ata.timeStepAux_alternating runs l hruns hok

/-- C4 witness: the error conditions and the alternation invariant at
concrete inputs — a negative delta, a time step on a list containing the
empty run, and the run produced by a symbol step of `ataConj`. -/
theorem c4_witness :
    automata.ata.ataConj.make_time_transition [automata.ata.runConj] (-1) =
      .error (.negativeTimeDelta (-1)) ∧
    automata.ata.ataConj.make_time_transition [([] : automata.ata.Run ℕ ℕ)] 1 =
      .error .wrongTransitionType ∧
    automata.ata.alternatingSteps
      (automata.ata.runConj ++ [(Sum.inl 1, [(20, 0), (21, 0)])]) = true :=
  ⟨(c4_alternation_and_errors automata.ata.ataConj [automata.ata.runConj]
        1 (-1)).2.1.mpr (by decide),
   (c4_alternation_and_errors automata.ata.ataConj [([] : automata.ata.Run ℕ ℕ)]
        1 1).2.2.1 (by decide) |>.mpr ⟨[], List.mem_singleton.mpr rfl, Or.inl rfl⟩,
   (c4_alternation_and_errors automata.ata.ataConj [automata.ata.runConj]
        1 1).2.2.2.1 (by intro r hr; rw [List.mem_singleton.mp hr]; decide)
     [automata.ata.runConj ++ [(Sum.inl 1, [(20, 0), (21, 0)])]] rfl
     _ (List.mem_singleton.mpr rfl)⟩

/-- C4 counterexample: with an ATA that has no transitions, the run list
`[[], r]` where `r` ends with a symbol step makes `make_symbol_transition`
return the empty set *without* throwing, although a given run (`r`) ends
with a symbol step — the first run's missing transition aborts the call
first.  So the alternation violation is not reported "exactly when" a
given run ends with a symbol step. -/
theorem c4_counterexample :
    automata.ata.ataNoTransitions.make_symbol_transition
      [[], [(Sum.inl 1, [])]] 1 = .ok [] ∧
    automata.ata.endsWithSymbol
      [((Sum.inl 1 : ℕ ⊕ automata.Time), ([] : automata.ata.Configuration ℕ))] =
      true :=
  ⟨rfl, rfl⟩

namespace automata
namespace ta

variable {S L : Type}

theorem is_enabled_symbol_eq [DecidableEq S] {t : Transition S L} {a : S}
    {v : ClockSetValuation} (h : t.is_enabled a v = true) : t.symbol = a := by
  unfold Transition.is_enabled at h
  by_cases hs : a = t.symbol
  · exact hs.symm
  · rw [if_pos hs] at h
    cases h

open TimedAutomaton in
theorem transitionLoop_no_symbol [DecidableEq S] {a : S} {time : Time} :
    ∀ (ts : List (Transition S L)) (p : Path S L),
      (∀ t ∈ ts, t.symbol ≠ a) → transitionLoop a time ts p = [] := by
  intro ts
  induction ts with
  | nil => intro p _; rfl
  | cons t rest ih =>
    intro p hsym
    unfold transitionLoop
    have hen : t.is_enabled a p.clock_valuations = false := by
      rcases h : t.is_enabled a p.clock_valuations with - | -
      · rfl
      · exact absurd (is_enabled_symbol_eq h) (hsym t (List.mem_cons_self _ _))
    rw [hen]
    simp only [Bool.false_eq_true, if_false]
    exact ih p (fun t ht => hsym t (List.mem_cons_of_mem _ ht))

open TimedAutomaton in
theorem transitionLoop_deterministic [DecidableEq S] {a : S} {time : Time} :
    ∀ (ts : List (Transition S L)) (p : Path S L),
      ((ts.filter (fun t => decide (t.symbol = a))).length ≤ 1) →
      transitionLoop a time ts p =
        (ts.filter (fun t => t.is_enabled a p.clock_valuations)).map
          (fun t => applyTransition t a time p) := by
  intro ts
  induction ts with
  | nil => intro p _; rfl
  | cons t rest ih =>
    intro p hdet
    unfold transitionLoop
    rcases hen : t.is_enabled a p.clock_valuations with - | -
    · simp only [Bool.false_eq_true, if_false]
      rw [List.filter_cons_of_neg (by simp [hen])]
      refine ih p ?_
      rcases hps : decide (t.symbol = a) with - | -
      · rwa [List.filter_cons_of_neg (by simp [hps])] at hdet
      · rw [List.filter_cons_of_pos (by simp [hps])] at hdet
        simp only [List.length_cons] at hdet
        omega
    · simp only [if_true]
      have hts : t.symbol = a := is_enabled_symbol_eq hen
      have hrest : ∀ t₂ ∈ rest, t₂.symbol ≠ a := by
        intro t₂ ht₂ hsym
        rw [List.filter_cons_of_pos (by simp [hts])] at hdet
        simp only [List.length_cons] at hdet
        have : (rest.filter (fun t => decide (t.symbol = a))).length = 0 := by
          omega
        rw [List.length_eq_zero] at this
        have hmem : t₂ ∈ rest.filter (fun t => decide (t.symbol = a)) :=
          List.mem_filter.mpr ⟨ht₂, by simp [hsym]⟩
        rw [this] at hmem
        cases hmem
      rw [List.filter_cons_of_pos (by simp [hen])]
      rw [transitionLoop_no_symbol rest _ hrest]
      have hfil : rest.filter (fun t => t.is_enabled a p.clock_valuations) = [] := by
        rw [List.filter_eq_nil_iff]
        intro t₂ ht₂
        intro hcon
        exact hrest t₂ ht₂ (is_enabled_symbol_eq hcon)
      rw [hfil]
      rfl

end ta
end automata

/-- C2 (amended): for a deterministic step — at most one transition from the
current location matches the symbol — `make_transition` returns exactly
the set of all enabled outcomes: one resulting path per transition from
the current location whose symbol matches and whose clock constraints are
satisfied by the advanced valuation, each switching to that transition's
target and resetting exactly that transition's reset clocks, starting
from the common pre-transition state.  (For non-deterministic steps the
loop of `ta.h:240-254` mutates the path between iterations, so the claim
as stated fails; see the counterexample.) -/
theorem c2_all_enabled_outcomes {S L : Type} [DecidableEq S] [DecidableEq L]
    (ta : automata.ta.TimedAutomaton S L) (path : automata.ta.Path S L)
    (symbol : S) (time : automata.Time)
    (hdet : ((automata.ta.equalRange ta.transitions
        path.current_location).filter
        (fun t => decide (t.symbol = symbol))).length ≤ 1) :
    ta.make_transition path symbol time =
      ta.stepAllEnabled path symbol time := by
  unfold automata.ta.TimedAutomaton.make_transition
    automata.ta.TimedAutomaton.stepAllEnabled
  split
  · rfl
  · exact automata.ta.transitionLoop_deterministic _ _ hdet

/-- C2 witness: the amended claim on the deterministic TA `taOneEnabled` at
its initial path, symbol `7`, time `0`. -/
theorem c2_witness :
    automata.ta.taOneEnabled.make_transition
        (automata.ta.Path.mk' automata.ta.taOneEnabled.initial_location) 7 0 =
      automata.ta.taOneEnabled.stepAllEnabled
        (automata.ta.Path.mk' automata.ta.taOneEnabled.initial_location) 7 0 :=
  c2_all_enabled_outcomes automata.ta.taOneEnabled
    (automata.ta.Path.mk' automata.ta.taOneEnabled.initial_location) 7 0
    (by decide)

/-- C2 counterexample: on `taTwoEnabled` (two transitions from `0` on symbol
`7`, both enabled) the code returns a second path whose sequence
`[(7,0,1), (7,0,2)]` records *both* location switches — it starts from
the path already mutated by the first transition — whereas the claim's
all-enabled-outcomes step returns paths `[(7,0,1)]` and `[(7,0,2)]`, each
starting from the common pre-transition state. -/
theorem c2_counterexample :
    (automata.ta.taTwoEnabled.make_transition
        (automata.ta.Path.mk' automata.ta.taTwoEnabled.initial_location) 7 0).map
      (fun p => p.sequence) = [[(7, 0, 1)], [(7, 0, 1), (7, 0, 2)]] ∧
    (automata.ta.taTwoEnabled.stepAllEnabled
        (automata.ta.Path.mk' automata.ta.taTwoEnabled.initial_location) 7 0).map
      (fun p => p.sequence) = [[(7, 0, 1)], [(7, 0, 2)]] :=
  ⟨by decide, by decide⟩

namespace automata
namespace ta

variable {S L : Type}

theorem mem_multimapInsert [LinearOrder L] :
    ∀ (m : List (L × Transition S L)) (k : L) (v : Transition S L)
      (e : L × Transition S L),
      e ∈ multimapInsert m k v ↔ e ∈ m ∨ e = (k, v) := by
  intro m k v
  induction m with
  | nil => intro e; simp [multimapInsert]
  | cons x rest ih =>
    intro e
    unfold multimapInsert
    split
    · simp only [List.mem_cons]
      tauto
    · simp only [List.mem_cons, ih e]
      tauto

end ta
end automata

/-- C5 (amended): `add_transition` throws `InvalidLocationException` exactly
when the source or the target is not a location of the TA; when both are
known it throws `InvalidClockException` exactly when some guard clock or
reset clock is unknown (so an unknown location takes precedence over an
unknown clock — see the counterexample for why the unconditional "exactly
when" of the claim fails); it succeeds exactly when all checks pass, in
which case locations and clocks are unchanged, exactly the new transition
is added (keyed by its source), and well-formedness is preserved: every
stored transition mentions only known clocks and locations. -/
theorem c5_add_transition_validation {S L : Type} [LinearOrder L]
    [DecidableEq S] (ta : automata.ta.TimedAutomaton S L)
    (t : automata.ta.Transition S L) :
    ((∃ l, ta.add_transition t = .error (.invalidLocation l)) ↔
      (t.source ∉ ta.locations ∨ t.target ∉ ta.locations)) ∧
    (t.source ∈ ta.locations → t.target ∈ ta.locations →
      ((∃ c, ta.add_transition t = .error (.invalidClock c)) ↔
        ∃ c ∈ t.clock_constraints.map (fun g => g.1) ++ t.clock_resets,
          c ∉ ta.clocks)) ∧
    ((∃ ta₂, ta.add_transition t = .ok ta₂) ↔
      (t.source ∈ ta.locations ∧ t.target ∈ ta.locations ∧
        ∀ c ∈ t.clock_constraints.map (fun g => g.1) ++ t.clock_resets,
          c ∈ ta.clocks)) ∧
    (∀ ta₂, ta.add_transition t = .ok ta₂ →
      ta₂.locations = ta.locations ∧ ta₂.clocks = ta.clocks ∧
      (∀ e, e ∈ ta₂.transitions ↔ e ∈ ta.transitions ∨ e = (t.source, t)) ∧
      (ta.WellFormed → ta₂.WellFormed)) := by
  by_cases hs : t.source ∈ ta.locations
  · by_cases ht : t.target ∈ ta.locations
    · rcases hfind : (t.clock_constraints.map (fun c => c.1) ++
          t.clock_resets).find? (fun name => decide (name ∉ ta.clocks)) with - | c
      · have hok : ta.add_transition t = .ok
            { ta with transitions :=
                automata.ta.multimapInsert ta.transitions t.source t } := by
          unfold automata.ta.TimedAutomaton.add_transition
          rw [if_neg (by simpa using hs), if_neg (by simpa using ht), hfind]
        have hall : ∀ c ∈ t.clock_constraints.map (fun g => g.1) ++
            t.clock_resets, c ∈ ta.clocks := by
          intro c hc
          have := List.find?_eq_none.mp hfind c hc
          simpa using this
        refine ⟨?_, ?_, ?_, ?_⟩
        · rw [hok]
          constructor
          · rintro ⟨l, hl⟩; cases hl
          · intro h; rcases h with h | h
            · exact absurd hs h
            · exact absurd ht h
        · intro _ _
          constructor
          · rintro ⟨c, hc⟩; rw [hok] at hc; cases hc
          · rintro ⟨c, hc, hnc⟩
            exact absurd (hall c hc) hnc
        · constructor
          · intro _; exact ⟨hs, ht, hall⟩
          · intro _; exact ⟨_, hok⟩
        · intro ta₂ hta₂
          rw [hok] at hta₂
          injection hta₂ with h
          subst h
          refine ⟨rfl, rfl, automata.ta.mem_multimapInsert ta.transitions _ _, ?_⟩
          rintro ⟨hwf₁, hwf₂, hwf₃⟩
          refine ⟨hwf₁, hwf₂, ?_⟩
          intro e he
          rcases (automata.ta.mem_multimapInsert ta.transitions _ _ e).mp he
            with he₂ | rfl
          · exact hwf₃ e he₂
          · refine ⟨rfl, hs, ht, ?_, ?_⟩
            · intro g hg
              exact hall g.1 (List.mem_append_left _ (List.mem_map_of_mem _ hg))
            · intro c hc
              exact hall c (List.mem_append_right _ hc)
      · have herr : ta.add_transition t = .error (.invalidClock c) := by
          unfold automata.ta.TimedAutomaton.add_transition
          rw [if_neg (by simpa using hs), if_neg (by simpa using ht), hfind]
        have hcmem : c ∈ t.clock_constraints.map (fun g => g.1) ++
            t.clock_resets := List.mem_of_find?_eq_some hfind
        have hcnot : c ∉ ta.clocks := by
          have := List.find?_some hfind
          simpa using this
        refine ⟨?_, ?_, ?_, ?_⟩
        · rw [herr]
          constructor
          · rintro ⟨l, hl⟩; cases hl
          · intro h; rcases h with h | h
            · exact absurd hs h
            · exact absurd ht h
        · intro _ _
          rw [herr]
          constructor
          · intro _; exact ⟨c, hcmem, hcnot⟩
          · intro _; exact ⟨c, rfl⟩
        · rw [herr]
          constructor
          · rintro ⟨ta₂, hta₂⟩; cases hta₂
          · rintro ⟨-, -, hall⟩
            exact absurd (hall c hcmem) hcnot
        · intro ta₂ hta₂
          rw [herr] at hta₂
          cases hta₂
    · have herr : ta.add_transition t = .error (.invalidLocation t.target) := by
        unfold automata.ta.TimedAutomaton.add_transition
        rw [if_neg (by simpa using hs), if_pos (by simpa using ht)]
      refine ⟨?_, ?_, ?_, ?_⟩
      · rw [herr]
        constructor
        · intro _; exact Or.inr ht
        · intro _; exact ⟨t.target, rfl⟩
      · intro _ ht₂; exact absurd ht₂ ht
      · rw [herr]
        constructor
        · rintro ⟨ta₂, hta₂⟩; cases hta₂
        · rintro ⟨-, ht₂, -⟩; exact absurd ht₂ ht
      · intro ta₂ hta₂
        rw [herr] at hta₂
        cases hta₂
  · have herr : ta.add_transition t = .error (.invalidLocation t.source) := by
      unfold automata.ta.TimedAutomaton.add_transition
      rw [if_pos (by simpa using hs)]
    refine ⟨?_, ?_, ?_, ?_⟩
    · rw [herr]
      constructor
      · intro _; exact Or.inl hs
      · intro _; exact ⟨t.source, rfl⟩
    · intro hs₂; exact absurd hs₂ hs
    · rw [herr]
      constructor
      · rintro ⟨ta₂, hta₂⟩; cases hta₂
      · rintro ⟨hs₂, -, -⟩; exact absurd hs₂ hs
    · intro ta₂ hta₂
      rw [herr] at hta₂
      cases hta₂

/-- C5 witness: the validation facts at the concrete well-formed `taSmall`
and its own (valid) transition, and at a transition with an unknown
target. -/
theorem c5_witness :
    (∃ ta₂, automata.ta.taSmall.add_transition ⟨0, 1, 7, [("x", .le 2)], ["x"]⟩ =
      .ok ta₂) ∧
    (∃ l, automata.ta.taSmall.add_transition ⟨0, 9, 7, [], []⟩ =
      .error (.invalidLocation l)) :=
  ⟨(c5_add_transition_validation automata.ta.taSmall
      ⟨0, 1, 7, [("x", .le 2)], ["x"]⟩).2.2.1.mpr
      ⟨by decide, by decide, by decide⟩,
   (c5_add_transition_validation automata.ta.taSmall ⟨0, 9, 7, [], []⟩).1.mpr
      (Or.inr (by decide))⟩

/-- C5 counterexample: a transition whose source `2` is unknown *and* whose
guard mentions the unknown clock `x` throws `InvalidLocationException`,
not `InvalidClockException` — so "throws InvalidClockException exactly
when some guard clock or reset clock is not a clock of the TA" fails as
stated (the location check precedes the clock check). -/
theorem c5_counterexample :
    automata.ta.taNoClocks.add_transition automata.ta.trBadBoth =
      .error (.invalidLocation 2) ∧
    ("x" ∈ automata.ta.trBadBoth.clock_constraints.map (fun g => g.1)) ∧
    ("x" ∉ automata.ta.taNoClocks.clocks) :=
  ⟨rfl, by decide, by decide⟩

namespace automata
namespace ta

variable {S L : Type}

open TimedAutomaton

theorem transitionLoop_tick [DecidableEq S] {a : S} {time : Time} :
    ∀ (ts : List (Transition S L)) (p q : Path S L),
      q ∈ transitionLoop a time ts p → q.tick = p.tick := by
  intro ts
  induction ts with
  | nil => intro p q hq; cases hq
  | cons t rest ih =>
    intro p q hq
    unfold transitionLoop at hq
    split at hq
    · rcases List.mem_cons.mp hq with rfl | hq₂
      · rfl
      · exact ih (applyTransition t a time p) q hq₂
    · exact ih p q hq

theorem make_transition_tick [DecidableEq S] [DecidableEq L]
    {ta : TimedAutomaton S L} {p q : Path S L} {a : S} {time : Time}
    (hq : q ∈ ta.make_transition p a time) : q.tick = time := by
  unfold TimedAutomaton.make_transition at hq
  split at hq
  · cases hq
  · exact transitionLoop_tick _ _ q hq

theorem make_transition_past [DecidableEq S] [DecidableEq L]
    (ta : TimedAutomaton S L) (p : Path S L) (a : S) (time : Time)
    (h : p.tick > time) : ta.make_transition p a time = [] := by
  unfold TimedAutomaton.make_transition
  rw [if_pos h]

theorem mem_pathInsert [LinearOrder S] [LinearOrder L] :
    ∀ (l : List (Path S L)) (p q : Path S L),
      q ∈ pathInsert p l → q = p ∨ q ∈ l := by
  intro l
  induction l with
  | nil =>
    intro p q hq
    rcases List.mem_singleton.mp hq with rfl
    exact Or.inl rfl
  | cons x rest ih =>
    intro p q hq
    unfold pathInsert at hq
    split at hq
    · rcases List.mem_cons.mp hq with rfl | hq₂
      · exact Or.inl rfl
      · exact Or.inr hq₂
    · split at hq
      · rcases List.mem_cons.mp hq with rfl | hq₂
        · exact Or.inr (List.mem_cons_self _ _)
        · rcases ih p q hq₂ with h | h
          · exact Or.inl h
          · exact Or.inr (List.mem_cons_of_mem _ h)
      · exact Or.inr hq

theorem mem_pathInsertAll [LinearOrder S] [LinearOrder L] :
    ∀ (ps s : List (Path S L)) (q : Path S L),
      q ∈ pathInsertAll ps s → q ∈ ps ∨ q ∈ s := by
  intro ps
  induction ps with
  | nil => intro s q hq; exact Or.inr hq
  | cons p rest ih =>
    intro s q hq
    rcases ih (pathInsert p s) q hq with h | h
    · exact Or.inl (List.mem_cons_of_mem _ h)
    · rcases mem_pathInsert s p q h with rfl | h₂
      · exact Or.inl (List.mem_cons_self _ _)
      · exact Or.inr h₂

theorem mem_stepFold [LinearOrder S] [LinearOrder L]
    (f : Path S L → List (Path S L)) :
    ∀ (paths init : List (Path S L)) (q : Path S L),
      q ∈ paths.foldl (fun acc p => pathInsertAll (f p) acc) init →
      q ∈ init ∨ ∃ p ∈ paths, q ∈ f p := by
  intro paths
  induction paths with
  | nil => intro init q hq; exact Or.inl hq
  | cons p rest ih =>
    intro init q hq
    rcases ih _ q hq with h | ⟨p₂, hp₂, hq₂⟩
    · rcases mem_pathInsertAll _ _ q h with h₂ | h₂
      · exact Or.inr ⟨p, List.mem_cons_self _ _, h₂⟩
      · exact Or.inl h₂
    · exact Or.inr ⟨p₂, List.mem_cons_of_mem _ hp₂, hq₂⟩

theorem stepFold_empty [LinearOrder S] [LinearOrder L]
    (f : Path S L → List (Path S L)) :
    ∀ paths : List (Path S L), (∀ p ∈ paths, f p = []) →
      paths.foldl (fun acc p => pathInsertAll (f p) acc) [] = [] := by
  intro paths
  induction paths with
  | nil => intro _; rfl
  | cons p rest ih =>
    intro h
    have hp : f p = [] := h p (List.mem_cons_self _ _)
    show rest.foldl _ (pathInsertAll (f p) []) = []
    rw [hp]
    exact ih (fun p hp => h p (List.mem_cons_of_mem _ hp))

theorem acceptsFrom_stale [LinearOrder S] [LinearOrder L]
    (ta : TimedAutomaton S L) (paths : List (Path S L))
    (a : S) (t T : Time) (rest : List (S × Time))
    (hticks : ∀ p ∈ paths, p.tick = T) (hlt : t < T) :
    ta.acceptsFrom paths ((a, t) :: rest) = false := by
  have hempty : paths.foldl
      (fun acc p => pathInsertAll (ta.make_transition p a t) acc) [] = [] := by
    refine stepFold_empty _ paths ?_
    intro p hp
    refine make_transition_past ta p a t ?_
    rw [hticks p hp]
    exact hlt
  unfold TimedAutomaton.acceptsFrom
  simp only [hempty, List.isEmpty_nil, if_true]

theorem acceptsFrom_descent [LinearOrder S] [LinearOrder L]
    (ta : TimedAutomaton S L) (x y : S × Time)
    (post : List (S × Time)) (hdesc : y.2 < x.2) :
    ∀ (pre : List (S × Time)) (paths : List (Path S L)),
      ta.acceptsFrom paths (pre ++ x :: y :: post) = false := by
  intro pre
  induction pre with
  | nil =>
    intro paths
    show ta.acceptsFrom paths ((x.1, x.2) :: y :: post) = false
    unfold TimedAutomaton.acceptsFrom
    rcases hres : paths.foldl
        (fun acc p => pathInsertAll (ta.make_transition p x.1 x.2) acc) [] with
      - | ⟨q, qs⟩ <;> simp only [hres]
    · simp
    · simp only [List.isEmpty_cons, Bool.false_eq_true, if_false]
      have hticks : ∀ p ∈ q :: qs, p.tick = x.2 := by
        intro p hp
        rw [← hres] at hp
        rcases mem_stepFold _ paths [] p hp with h | ⟨p₂, -, hp₂⟩
        · cases h
        · exact make_transition_tick hp₂
      exact acceptsFrom_stale ta (q :: qs) y.1 y.2 x.2 post hticks hdesc
  | cons w pre ih =>
    intro paths
    show ta.acceptsFrom paths ((w.1, w.2) :: (pre ++ x :: y :: post)) = false
    unfold TimedAutomaton.acceptsFrom
    rcases hres : paths.foldl
        (fun acc p => pathInsertAll (ta.make_transition p w.1 w.2) acc) [] with
      - | ⟨q, qs⟩ <;> simp only [hres]
    · simp
    · simp only [List.isEmpty_cons, Bool.false_eq_true, if_false]
      exact ih (q :: qs)

end ta
end automata

/-- C10: a symbol whose absolute time lies strictly in the past of the
path's elapsed time makes `make_transition` return the empty set (no
exception is possible: the embedded function is total, mirroring the code
which returns before touching any clock), and consequently `accepts_word`
returns `false` on every timed word whose timestamps decrease at some
point. -/
theorem c10_decreasing_time_rejected {S L : Type} [LinearOrder S]
    [LinearOrder L] :
    (∀ (ta : automata.ta.TimedAutomaton S L) (path : automata.ta.Path S L)
      (symbol : S) (time : automata.Time), path.tick > time →
      ta.make_transition path symbol time = []) ∧
    (∀ (ta : automata.ta.TimedAutomaton S L) (word : List (S × automata.Time))
      (pre : List (S × automata.Time)) (x y : S × automata.Time)
      (post : List (S × automata.Time)),
      word = pre ++ x :: y :: post → y.2 < x.2 →
      ta.accepts_word word = false) := by
  constructor
  · intro ta path symbol time h
    exact automata.ta.make_transition_past ta path symbol time h
  · intro ta word pre x y post hword hdesc
    rw [hword]
    exact automata.ta.acceptsFrom_descent ta x y post hdesc pre _

/-- C10 witness: the empty step at a path whose tick `1` exceeds the symbol
time `0`, and the rejection of the decreasing word `(7,1), (7,0)` by
`taSmall`. -/
theorem c10_witness :
    automata.ta.taSmall.make_transition
      ⟨[], fun _ => 0, 0, 1⟩ 7 0 = [] ∧
    automata.ta.taSmall.accepts_word [(7, 1), (7, 0)] = false :=
  ⟨c10_decreasing_time_rejected.1 automata.ta.taSmall
      ⟨[], fun _ => 0, 0, 1⟩ 7 0 (by decide),
   c10_decreasing_time_rejected.2 automata.ta.taSmall [(7, 1), (7, 0)]
      [] (7, 1) (7, 0) [] rfl (by decide)⟩

namespace automata
namespace ta

variable {S L : Type}

theorem mem_setInsert [LinearOrder L] :
    ∀ (l : List L) (a x : L), x ∈ setInsert a l ↔ x = a ∨ x ∈ l := by
  intro l
  induction l with
  | nil => intro a x; simp [setInsert]
  | cons b rest ih =>
    intro a x
    unfold setInsert
    rcases lt_trichotomy a b with h | h | h
    · rw [if_pos h]
      simp
    · subst h
      rw [if_neg (lt_irrefl a), if_neg (lt_irrefl a)]
      simp only [List.mem_cons]
      tauto
    · rw [if_neg (not_lt.mpr h.le), if_pos h]
      simp only [List.mem_cons, ih a x]
      tauto

theorem mem_foldl_setInsert [LinearOrder L] :
    ∀ (ls : List L) (init : List L) (x : L),
      x ∈ ls.foldl (fun acc l => setInsert l acc) init ↔ x ∈ init ∨ x ∈ ls := by
  intro ls
  induction ls with
  | nil => intro init x; simp
  | cons l rest ih =>
    intro init x
    show x ∈ rest.foldl _ (setInsert l init) ↔ _
    rw [ih (setInsert l init) x, mem_setInsert]
    simp only [List.mem_cons]
    tauto

theorem mem_foldl_multimapInsert [LinearOrder L] :
    ∀ (ts : List (Transition S L)) (init : List (L × Transition S L))
      (e : L × Transition S L),
      e ∈ ts.foldl (fun m t => multimapInsert m t.source t) init ↔
        e ∈ init ∨ ∃ t ∈ ts, e = (t.source, t) := by
  intro ts
  induction ts with
  | nil => intro init e; simp
  | cons t rest ih =>
    intro init e
    show e ∈ rest.foldl _ (multimapInsert init t.source t) ↔ _
    rw [ih _ e, mem_multimapInsert]
    simp only [List.mem_cons]
    constructor
    · rintro ((h | h) | ⟨t₂, ht₂, rfl⟩)
      · exact Or.inl h
      · exact Or.inr ⟨t, Or.inl rfl, h⟩
      · exact Or.inr ⟨t₂, Or.inr ht₂, rfl⟩
    · rintro (h | ⟨t₂, (rfl | ht₂), rfl⟩)
      · exact Or.inl (Or.inl h)
      · exact Or.inl (Or.inr rfl)
      · exact Or.inr ⟨t₂, ht₂, rfl⟩

theorem foldl_add_location_eq [LinearOrder L] :
    ∀ (ls : List L) (ta : TimedAutomaton S L),
      ls.foldl (fun ta l => ta.add_location l) ta =
        { ta with locations := ls.foldl (fun acc l => setInsert l acc) ta.locations } := by
  intro ls
  induction ls with
  | nil => intro ta; rfl
  | cons l rest ih =>
    intro ta
    show rest.foldl _ (ta.add_location l) = _
    rw [ih (ta.add_location l)]
    rfl

theorem foldl_add_clock_eq :
    ∀ (names : List String) (ta : TimedAutomaton S L),
      names.foldl (fun ta n => ta.add_clock n) ta =
        { ta with clocks := (names.foldl
            (fun cs n => if n ∈ cs then cs else cs ++ [n]) ta.clocks) } := by
  intro names
  induction names with
  | nil => intro ta; rfl
  | cons n rest ih =>
    intro ta
    show rest.foldl _ (ta.add_clock n) = _
    rw [ih (ta.add_clock n)]
    unfold TimedAutomaton.add_clock
    rfl

theorem mem_foldl_clockInsert :
    ∀ (names : List String) (init : List String) (c : String),
      c ∈ names.foldl (fun cs n => if n ∈ cs then cs else cs ++ [n]) init ↔
        c ∈ init ∨ c ∈ names := by
  intro names
  induction names with
  | nil => intro init c; simp
  | cons n rest ih =>
    intro init c
    show c ∈ rest.foldl _ (if n ∈ init then init else init ++ [n]) ↔ _
    rw [ih _ c]
    simp only [List.mem_cons]
    split
    · constructor
      · rintro (h | h)
        · exact Or.inl h
        · exact Or.inr (Or.inr h)
      · rintro (h | (rfl | h))
        · exact Or.inl h
        · exact Or.inl (by assumption)
        · exact Or.inr h
    · simp only [List.mem_append, List.mem_singleton]
      tauto

theorem add_transition_ok_of_valid [LinearOrder L] [DecidableEq S]
    (ta : TimedAutomaton S L) (t : Transition S L)
    (hs : t.source ∈ ta.locations) (ht : t.target ∈ ta.locations)
    (hc : ∀ c ∈ t.clock_constraints.map (fun g => g.1) ++ t.clock_resets,
      c ∈ ta.clocks) :
    ta.add_transition t = .ok
      { ta with transitions := multimapInsert ta.transitions t.source t } := by
  unfold TimedAutomaton.add_transition
  rw [if_neg (by simpa using hs), if_neg (by simpa using ht)]
  have hfind : (t.clock_constraints.map (fun c => c.1) ++ t.clock_resets).find?
      (fun name => decide (name ∉ ta.clocks)) = none := by
    rw [List.find?_eq_none]
    intro c hcmem
    simpa using hc c hcmem
  rw [hfind]

theorem add_transition_not_unimplemented [LinearOrder L] [DecidableEq S]
    (ta : TimedAutomaton S L) (t : Transition S L) :
    ta.add_transition t ≠ .error .notImplemented := by
  intro h
  unfold TimedAutomaton.add_transition at h
  split at h
  · cases h
  · split at h
    · cases h
    · split at h
      · cases h
      · cases h

theorem foldlM_add_transition_ok [LinearOrder L] [DecidableEq S] :
    ∀ (ts : List (Transition S L)) (acc : TimedAutomaton S L),
      (∀ t ∈ ts, t.source ∈ acc.locations ∧ t.target ∈ acc.locations ∧
        ∀ c ∈ t.clock_constraints.map (fun g => g.1) ++ t.clock_resets,
          c ∈ acc.clocks) →
      ts.foldlM (fun ta t => ta.add_transition t) acc = .ok
        { acc with transitions :=
            ts.foldl (fun m t => multimapInsert m t.source t) acc.transitions } := by
  intro ts
  induction ts with
  | nil => intro acc _; rfl
  | cons t rest ih =>
    intro acc h
    obtain ⟨hs, ht, hc⟩ := h t (List.mem_cons_self _ _)
    rw [List.foldlM_cons, add_transition_ok_of_valid acc t hs ht hc]
    exact ih { acc with transitions := multimapInsert acc.transitions t.source t }
      (fun t₂ ht₂ => h t₂ (List.mem_cons_of_mem _ ht₂))

theorem foldlM_add_transition_not_unimplemented [LinearOrder L] [DecidableEq S] :
    ∀ (ts : List (Transition S L)) (acc : TimedAutomaton S L),
      ts.foldlM (fun ta t => ta.add_transition t) acc ≠
        .error .notImplemented := by
  intro ts
  induction ts with
  | nil => intro acc h; cases h
  | cons t rest ih =>
    intro acc h
    rw [List.foldlM_cons] at h
    rcases hadd : acc.add_transition t with e | acc₂ <;> rw [hadd] at h
    · have h₂ : (Except.error e : Except (TaException L) (TimedAutomaton S L)) =
          .error .notImplemented := h
      cases h₂
      exact add_transition_not_unimplemented acc t hadd
    · exact ih acc₂ h

end ta
end automata

namespace automata
namespace ta

variable {S L : Type}

theorem product_folds_ok {P : Type} [LinearOrder P] [DecidableEq S]
    (wc : TimedAutomaton S P) (f1 f2 : List (Transition S P))
    (hv1 : ∀ t ∈ f1, t.source ∈ wc.locations ∧ t.target ∈ wc.locations ∧
      ∀ c ∈ t.clock_constraints.map (fun g => g.1) ++ t.clock_resets,
        c ∈ wc.clocks)
    (hv2 : ∀ t ∈ f2, t.source ∈ wc.locations ∧ t.target ∈ wc.locations ∧
      ∀ c ∈ t.clock_constraints.map (fun g => g.1) ++ t.clock_resets,
        c ∈ wc.clocks) :
    (do
      let res1 ← f1.foldlM (fun (ta : TimedAutomaton S P) (t : Transition S P) => ta.add_transition t) wc
      let res2 ← f2.foldlM (fun (ta : TimedAutomaton S P) (t : Transition S P) => ta.add_transition t) res1
      (.ok res2 : Except (TaException P) (TimedAutomaton S P))) =
    .ok { wc with transitions :=
        (f2.foldl (fun m t => multimapInsert m t.source t)
          (f1.foldl (fun m t => multimapInsert m t.source t)
            wc.transitions)) } := by
  rw [foldlM_add_transition_ok f1 wc hv1]
  show (f2.foldlM (fun (ta : TimedAutomaton S P) (t : Transition S P) => ta.add_transition t)
      { wc with transitions :=
          (f1.foldl (fun m t => multimapInsert m t.source t) wc.transitions) } >>=
    fun res2 => (.ok res2 : Except (TaException P) (TimedAutomaton S P))) = _
  rw [foldlM_add_transition_ok f2
    { wc with transitions :=
        (f1.foldl (fun m t => multimapInsert m t.source t) wc.transitions) }
    hv2]
  rfl

theorem product_folds_not_unimplemented {P : Type} [LinearOrder P]
    [DecidableEq S] (wc : TimedAutomaton S P)
    (f1 f2 : List (Transition S P)) :
    (do
      let res1 ← f1.foldlM (fun (ta : TimedAutomaton S P) (t : Transition S P) => ta.add_transition t) wc
      let res2 ← f2.foldlM (fun (ta : TimedAutomaton S P) (t : Transition S P) => ta.add_transition t) res1
      (.ok res2 : Except (TaException P) (TimedAutomaton S P))) ≠
    .error .notImplemented := by
  intro h
  rcases hf1 : f1.foldlM (fun (ta : TimedAutomaton S P) (t : Transition S P) => ta.add_transition t) wc with e | r1 <;>
    rw [hf1] at h
  · have h₂ : (Except.error e :
        Except (TaException P) (TimedAutomaton S P)) = .error .notImplemented := h
    exact foldlM_add_transition_not_unimplemented f1 wc (hf1.trans h₂)
  · have h₂ : (do
        let res2 ← f2.foldlM (fun (ta : TimedAutomaton S P) (t : Transition S P) => ta.add_transition t) r1
        (.ok res2 : Except (TaException P) (TimedAutomaton S P))) =
        .error .notImplemented := h
    rcases hf2 : f2.foldlM (fun (ta : TimedAutomaton S P) (t : Transition S P) => ta.add_transition t) r1 with e₂ | r2 <;>
      rw [hf2] at h₂
    · have h₃ : (Except.error e₂ :
          Except (TaException P) (TimedAutomaton S P)) =
          .error .notImplemented := h₂
      exact foldlM_add_transition_not_unimplemented f2 r1 (hf2.trans h₃)
    · cases h₂

end ta
end automata

namespace automata
namespace ta

theorem get_product_eq {S L₁ L₂ : Type} [LinearOrder S] [LinearOrder L₁]
    [LinearOrder L₂] [DecidableEq S]
    (ta1 : TimedAutomaton S L₁) (ta2 : TimedAutomaton S L₂)
    (h1 : ta1.WellFormed) (h2 : ta2.WellFormed) :
    get_product ta1 ta2 [] = .ok (productTA ta1 ta2) := by
  obtain ⟨hi1, hfin1, htr1⟩ := h1
  obtain ⟨hi2, hfin2, htr2⟩ := h2
  unfold get_product
  rw [if_neg (by simp)]
  refine Eq.trans (product_folds_ok _ _ _ ?hv1 ?hv2) ?final
  case hv1 =>
    intro t ht
    simp only [List.mem_flatMap, List.mem_map] at ht
    obtain ⟨e, he, l2, hl2, rfl⟩ := ht
    obtain ⟨-, hkey, htgt, hg, hr⟩ := htr1 e he
    rw [foldl_add_clock_eq, foldl_add_location_eq]
    refine ⟨?_, ?_, ?_⟩
    · show toLex (e.1, l2) ∈ _
      dsimp only
      rw [mem_foldl_setInsert]
      refine Or.inr ?_
      simp only [List.mem_flatMap, List.mem_map]
      exact ⟨e.1, hkey, l2, hl2, rfl⟩
    · show toLex (e.2.target, l2) ∈ _
      dsimp only
      rw [mem_foldl_setInsert]
      refine Or.inr ?_
      simp only [List.mem_flatMap, List.mem_map]
      exact ⟨e.2.target, htgt, l2, hl2, rfl⟩
    · intro c hc
      show c ∈ _
      dsimp only
      rw [mem_foldl_clockInsert]
      refine Or.inr (List.mem_append_left _ ?_)
      rcases List.mem_append.mp hc with hcg | hcr
      · simp only [List.mem_map] at hcg
        obtain ⟨g, hg₂, rfl⟩ := hcg
        exact hg g hg₂
      · exact hr c hcr
  case hv2 =>
    intro t ht
    simp only [List.mem_flatMap, List.mem_map] at ht
    obtain ⟨e, he, l1, hl1, rfl⟩ := ht
    obtain ⟨-, hkey, htgt, hg, hr⟩ := htr2 e he
    rw [foldl_add_clock_eq, foldl_add_location_eq]
    refine ⟨?_, ?_, ?_⟩
    · show toLex (l1, e.1) ∈ _
      dsimp only
      rw [mem_foldl_setInsert]
      refine Or.inr ?_
      simp only [List.mem_flatMap, List.mem_map]
      exact ⟨l1, hl1, e.1, hkey, rfl⟩
    · show toLex (l1, e.2.target) ∈ _
      dsimp only
      rw [mem_foldl_setInsert]
      refine Or.inr ?_
      simp only [List.mem_flatMap, List.mem_map]
      exact ⟨l1, hl1, e.2.target, htgt, rfl⟩
    · intro c hc
      show c ∈ _
      dsimp only
      rw [mem_foldl_clockInsert]
      refine Or.inr (List.mem_append_right _ ?_)
      rcases List.mem_append.mp hc with hcg | hcr
      · simp only [List.mem_map] at hcg
        obtain ⟨g, hg₂, rfl⟩ := hcg
        exact hg g hg₂
      · exact hr c hcr
  case final =>
    rw [foldl_add_clock_eq, foldl_add_location_eq]
    rfl

end ta
end automata

/-- C6: `get_product` throws `NotImplementedException` — the distinct
unsupported-feature error — exactly when the synchronized-action set is
non-empty; otherwise (for well-formed components) it returns the TA whose
locations are the pairs of component locations, whose alphabet and clock
set are the unions of the components', whose initial location is the pair
of initial locations, whose final locations are the pairs of final
locations, and whose transitions are exactly the interleavings: one
component moves, the other stays in place. -/
theorem c6_product_construction {S L₁ L₂ : Type} [LinearOrder S]
    [LinearOrder L₁] [LinearOrder L₂] [DecidableEq S]
    (ta1 : automata.ta.TimedAutomaton S L₁)
    (ta2 : automata.ta.TimedAutomaton S L₂) (sync : List S) :
    (automata.ta.get_product ta1 ta2 sync = .error .notImplemented ↔
      sync ≠ []) ∧
    (sync = [] → ta1.WellFormed → ta2.WellFormed →
      ∃ P, automata.ta.get_product ta1 ta2 sync = .ok P ∧
        (∀ l, l ∈ P.locations ↔
          ∃ l1 ∈ ta1.locations, ∃ l2 ∈ ta2.locations, l = toLex (l1, l2)) ∧
        (∀ a, a ∈ P.alphabet ↔ a ∈ ta1.alphabet ∨ a ∈ ta2.alphabet) ∧
        (∀ c, c ∈ P.clocks ↔ c ∈ ta1.clocks ∨ c ∈ ta2.clocks) ∧
        P.initial_location =
          toLex (ta1.initial_location, ta2.initial_location) ∧
        (∀ l, l ∈ P.final_locations ↔
          ∃ l1 ∈ ta1.final_locations, ∃ l2 ∈ ta2.final_locations,
            l = toLex (l1, l2)) ∧
        (∀ x, x ∈ P.transitions ↔
          (∃ e ∈ ta1.transitions, ∃ l2 ∈ ta2.locations,
            x = (toLex (e.1, l2),
              ⟨toLex (e.1, l2), toLex (e.2.target, l2), e.2.symbol,
                e.2.clock_constraints, e.2.clock_resets⟩)) ∨
          (∃ e ∈ ta2.transitions, ∃ l1 ∈ ta1.locations,
            x = (toLex (l1, e.1),
              ⟨toLex (l1, e.1), toLex (l1, e.2.target), e.2.symbol,
                e.2.clock_constraints, e.2.clock_resets⟩)))) := by
  constructor
  · constructor
    · intro h hne
      subst hne
      unfold automata.ta.get_product at h
      rw [if_neg (by simp)] at h
      exact automata.ta.product_folds_not_unimplemented _ _ _ h
    · intro hne
      unfold automata.ta.get_product
      rw [if_pos ?_]
      cases sync with
      | nil => exact absurd rfl hne
      | cons a l => simp
  · rintro rfl h1 h2
    refine ⟨automata.ta.productTA ta1 ta2,
      automata.ta.get_product_eq ta1 ta2 h1 h2, ?_, ?_, ?_, rfl, ?_, ?_⟩
    · intro l
      show l ∈ (_ : List _).foldl _ _ ↔ _
      rw [automata.ta.mem_foldl_setInsert, automata.ta.mem_foldl_setInsert,
        automata.ta.mem_foldl_setInsert]
      simp only [List.not_mem_nil, false_or, List.mem_singleton,
        List.mem_flatMap, List.mem_map]
      constructor
      · rintro ((rfl | ⟨l1, hl1, l2, hl2, rfl⟩) | ⟨l1, hl1, l2, hl2, rfl⟩)
        · exact ⟨ta1.initial_location, h1.1, ta2.initial_location, h2.1, rfl⟩
        · exact ⟨l1, h1.2.1 l1 hl1, l2, h2.2.1 l2 hl2, rfl⟩
        · exact ⟨l1, hl1, l2, hl2, rfl⟩
      · rintro ⟨l1, hl1, l2, hl2, rfl⟩
        exact Or.inr ⟨l1, hl1, l2, hl2, rfl⟩
    · intro a
      show a ∈ (_ : List _).foldl _ _ ↔ _
      rw [automata.ta.mem_foldl_setInsert]
      simp [List.mem_append]
    · intro c
      show c ∈ (_ : List _).foldl _ _ ↔ _
      rw [automata.ta.mem_foldl_clockInsert]
      simp [List.mem_append]
    · intro l
      show l ∈ (_ : List _).foldl _ _ ↔ _
      rw [automata.ta.mem_foldl_setInsert]
      simp only [List.not_mem_nil, false_or, List.mem_flatMap, List.mem_map]
      constructor
      · rintro ⟨l1, hl1, l2, hl2, rfl⟩
        exact ⟨l1, hl1, l2, hl2, rfl⟩
      · rintro ⟨l1, hl1, l2, hl2, rfl⟩
        exact ⟨l1, hl1, l2, hl2, rfl⟩
    · intro x
      show x ∈ (_ : List _).foldl _ _ ↔ _
      rw [automata.ta.mem_foldl_multimapInsert,
        automata.ta.mem_foldl_multimapInsert]
      simp only [List.not_mem_nil, false_or, List.mem_flatMap, List.mem_map]
      constructor
      · rintro (⟨t, ⟨e, he, l2, hl2, rfl⟩, rfl⟩ | ⟨t, ⟨e, he, l1, hl1, rfl⟩, rfl⟩)
        · exact Or.inl ⟨e, he, l2, hl2, rfl⟩
        · exact Or.inr ⟨e, he, l1, hl1, rfl⟩
      · rintro (⟨e, he, l2, hl2, rfl⟩ | ⟨e, he, l1, hl1, rfl⟩)
        · exact Or.inl ⟨_, ⟨e, he, l2, hl2, rfl⟩, rfl⟩
        · exact Or.inr ⟨_, ⟨e, he, l1, hl1, rfl⟩, rfl⟩

/-- C6 witness: the product of the two concrete well-formed TAs `taSmall`
and `taSmall₂` with an empty synchronization set exists and has the
claimed fields, and a non-empty synchronization set gives
`NotImplementedException`. -/
theorem c6_witness :
    automata.ta.get_product automata.ta.taSmall automata.ta.taSmall₂ [7] =
      .error .notImplemented ∧
    (∃ P, automata.ta.get_product automata.ta.taSmall automata.ta.taSmall₂ [] =
      .ok P ∧ ∀ c, c ∈ P.clocks ↔
        c ∈ automata.ta.taSmall.clocks ∨ c ∈ automata.ta.taSmall₂.clocks) :=
  ⟨(c6_product_construction automata.ta.taSmall automata.ta.taSmall₂ [7]).1.mpr
      (by decide),
   by
    obtain ⟨P, hP, -, -, hc, -⟩ :=
      (c6_product_construction automata.ta.taSmall automata.ta.taSmall₂ []).2
        rfl (by unfold automata.ta.TimedAutomaton.WellFormed; decide)
        (by unfold automata.ta.TimedAutomaton.WellFormed; decide)
    exact ⟨P, hP, hc⟩⟩

namespace automata
namespace ta

variable {S L : Type}

open TimedAutomaton

theorem liftLocation_injective :
    Function.Injective (liftLocation (L := L)) := by
  intro a b h
  have := toLex.injective h
  exact congrArg Prod.fst this

theorem liftLocation_lt_iff [LinearOrder L] (a b : L) :
    liftLocation a < liftLocation b ↔ a < b := by
  unfold liftLocation
  rw [Prod.Lex.lt_iff]
  simp

theorem entryLt_lift [LinearOrder S] [LinearOrder L] (x y : S × Time × L) :
    entryLt (liftEntry x) (liftEntry y) = entryLt x y := by
  unfold entryLt liftEntry
  dsimp only
  rw [show decide (liftLocation x.2.2 < liftLocation y.2.2) =
    decide (x.2.2 < y.2.2) from decide_eq_decide.mpr (liftLocation_lt_iff _ _)]

theorem seqLt_lift [LinearOrder S] [LinearOrder L] :
    ∀ (s₁ s₂ : List (S × Time × L)),
      seqLt (s₁.map liftEntry) (s₂.map liftEntry) = seqLt s₁ s₂ := by
  intro s₁
  induction s₁ with
  | nil =>
    intro s₂
    cases s₂ with
    | nil => rfl
    | cons y ys => rfl
  | cons x xs ih =>
    intro s₂
    cases s₂ with
    | nil => rfl
    | cons y ys =>
      show seqLt (liftEntry x :: xs.map liftEntry)
        (liftEntry y :: ys.map liftEntry) = _
      unfold seqLt
      rw [entryLt_lift, entryLt_lift, ih ys]

theorem pathInsert_lift [LinearOrder S] [LinearOrder L] :
    ∀ (l : List (Path S L)) (p : Path S L),
      pathInsert (liftPath p) (l.map liftPath) = (pathInsert p l).map liftPath := by
  intro l
  induction l with
  | nil => intro p; rfl
  | cons q rest ih =>
    intro p
    show pathInsert (liftPath p) (liftPath q :: rest.map liftPath) = _
    unfold pathInsert
    have h₁ : seqLt (liftPath p).sequence (liftPath q).sequence =
        seqLt p.sequence q.sequence := seqLt_lift p.sequence q.sequence
    have h₂ : seqLt (liftPath q).sequence (liftPath p).sequence =
        seqLt q.sequence p.sequence := seqLt_lift q.sequence p.sequence
    rw [h₁, h₂]
    rcases hpq : seqLt p.sequence q.sequence with - | -
    · rcases hqp : seqLt q.sequence p.sequence with - | - <;> simp [ih p]
    · simp

theorem pathInsertAll_lift [LinearOrder S] [LinearOrder L] :
    ∀ (ps s : List (Path S L)),
      pathInsertAll (ps.map liftPath) (s.map liftPath) =
        (pathInsertAll ps s).map liftPath := by
  intro ps
  induction ps with
  | nil => intro s; rfl
  | cons p rest ih =>
    intro s
    show pathInsertAll (rest.map liftPath) (pathInsert (liftPath p) (s.map liftPath)) = _
    rw [pathInsert_lift s p]
    exact ih (pathInsert p s)

end ta
end automata

namespace automata
namespace ta

variable {S L : Type}

open TimedAutomaton

theorem multimapInsert_sorted [LinearOrder L] :
    ∀ (m : List (L × Transition S L)) (k : L) (v : Transition S L),
      m.Pairwise (fun a b => a.1 ≤ b.1) →
      (multimapInsert m k v).Pairwise (fun a b => a.1 ≤ b.1) := by
  intro m k v
  induction m with
  | nil => intro _; simp [multimapInsert]
  | cons e rest ih =>
    intro hm
    rw [List.pairwise_cons] at hm
    obtain ⟨he, hrest⟩ := hm
    unfold multimapInsert
    split
    · rw [List.pairwise_cons]
      constructor
      · intro e₂ he₂
        rcases List.mem_cons.mp he₂ with rfl | he₃
        · exact le_of_lt (by assumption)
        · exact le_trans (le_of_lt (by assumption)) (he e₂ he₃)
      · exact List.pairwise_cons.mpr ⟨he, hrest⟩
    · rw [List.pairwise_cons]
      constructor
      · intro e₂ he₂
        rcases (mem_multimapInsert rest k v e₂).mp he₂ with he₃ | rfl
        · exact he e₂ he₃
        · exact not_lt.mp (by assumption)
      · exact ih hrest

theorem equalRange_multimapInsert_self [LinearOrder L] :
    ∀ (m : List (L × Transition S L)) (k : L) (v : Transition S L),
      m.Pairwise (fun a b => a.1 ≤ b.1) →
      equalRange (multimapInsert m k v) k = equalRange m k ++ [v] := by
  intro m k v
  induction m with
  | nil => intro _; simp [multimapInsert, equalRange]
  | cons e rest ih =>
    intro hm
    rw [List.pairwise_cons] at hm
    obtain ⟨he, hrest⟩ := hm
    unfold multimapInsert
    split
    · have hgt : k < e.1 := by assumption
      have hnone : equalRange (e :: rest) k = [] := by
        unfold equalRange
        rw [List.filter_cons_of_neg (by simp; intro hc; rw [hc] at hgt; exact lt_irrefl _ hgt)]
        rw [List.filter_eq_nil_iff.mpr ?_]
        · rfl
        · intro e₂ he₂
          simp only [decide_eq_true_eq]
          intro hc
          have := he e₂ he₂
          rw [hc] at this
          exact absurd this (not_le.mpr hgt)
      rw [hnone]
      unfold equalRange
      rw [List.filter_cons_of_pos (by simp)]
      simp only [List.map_cons]
      unfold equalRange at hnone
      rw [hnone]
      rfl
    · rcases hek : decide (e.1 = k) with - | -
      · unfold equalRange
        rw [List.filter_cons_of_neg (by simp at hek ⊢; exact hek),
          List.filter_cons_of_neg (by simp at hek ⊢; exact hek)]
        exact ih hrest
      · unfold equalRange
        rw [List.filter_cons_of_pos (by simpa using hek),
          List.filter_cons_of_pos (by simpa using hek)]
        simp only [List.map_cons, List.cons_append]
        have := ih hrest
        unfold equalRange at this
        rw [this]

end ta
end automata

namespace automata
namespace ta

variable {S L : Type}

open TimedAutomaton

theorem equalRange_multimapInsert_other [LinearOrder L] :
    ∀ (m : List (L × Transition S L)) (k k' : L) (v : Transition S L),
      k' ≠ k →
      equalRange (multimapInsert m k v) k' = equalRange m k' := by
  intro m k k' v hne
  induction m with
  | nil =>
    unfold multimapInsert equalRange
    rw [List.filter_cons_of_neg (by simpa using fun h => hne h.symm)]
  | cons e rest ih =>
    unfold multimapInsert
    split
    · unfold equalRange
      rw [List.filter_cons_of_neg (by simpa using fun h => hne h.symm)]
    · rcases hek : decide (e.1 = k') with - | -
      · unfold equalRange
        rw [List.filter_cons_of_neg (by simpa using hek),
          List.filter_cons_of_neg (by simpa using hek)]
        exact ih
      · unfold equalRange
        rw [List.filter_cons_of_pos (by simpa using hek),
          List.filter_cons_of_pos (by simpa using hek)]
        simp only [List.map_cons]
        unfold equalRange at ih
        rw [ih]

theorem equalRange_foldl_multimapInsert [LinearOrder L] :
    ∀ (ts : List (Transition S L)) (init : List (L × Transition S L)) (k : L),
      init.Pairwise (fun a b => a.1 ≤ b.1) →
      equalRange (ts.foldl (fun m t => multimapInsert m t.source t) init) k =
        equalRange init k ++ (ts.filter (fun t => decide (t.source = k))) := by
  intro ts
  induction ts with
  | nil => intro init k _; simp
  | cons t rest ih =>
    intro init k hinit
    show equalRange (rest.foldl _ (multimapInsert init t.source t)) k = _
    rw [ih (multimapInsert init t.source t) k
      (multimapInsert_sorted init t.source t hinit)]
    rcases htk : decide (t.source = k) with - | -
    · rw [equalRange_multimapInsert_other init t.source k t
        (by simpa using fun h => by simp [h.symm] at htk)]
      rw [List.filter_cons_of_neg (by simpa using htk)]
    · have : t.source = k := by simpa using htk
      subst this
      rw [equalRange_multimapInsert_self init t.source t hinit]
      rw [List.filter_cons_of_pos (by simp)]
      simp

end ta
end automata

namespace automata
namespace ta

variable {S L : Type}

open TimedAutomaton

theorem flatMap_singleton_map {A B : Type} :
    ∀ (l : List A) (f : A → B), l.flatMap (fun e => [f e]) = l.map f := by
  intro l f
  induction l with
  | nil => rfl
  | cons x xs ih => simp only [List.flatMap_cons, List.map_cons, ih]; rfl

theorem trivial_locations [LinearOrder S] :
    (trivialTimedAutomaton S).locations = [()] := by
  show setInsert () [()] = [()]
  unfold setInsert
  rw [if_neg (lt_irrefl ()), if_neg (lt_irrefl ())]

theorem trivial_wellFormed [LinearOrder S] :
    (trivialTimedAutomaton S).WellFormed := by
  refine ⟨?_, ?_, ?_⟩
  · rw [show (trivialTimedAutomaton S).initial_location = () from rfl,
      trivial_locations]
    exact List.mem_singleton.mpr rfl
  · intro l hl
    rw [trivial_locations]
    exact List.mem_singleton.mpr rfl
  · intro e he
    cases he

theorem productTA_trivial_transitions [LinearOrder S] [LinearOrder L]
    (ta1 : TimedAutomaton S L) :
    (productTA ta1 (trivialTimedAutomaton S)).transitions =
      (ta1.transitions.map (fun e => liftTransition e.1 e.2)).foldl
        (fun m t => multimapInsert m t.source t) [] := by
  unfold productTA
  dsimp only
  rw [show (trivialTimedAutomaton S).transitions =
    ([] : List (Unit × Transition S Unit)) from rfl]
  rw [trivial_locations]
  simp only [List.map_cons, List.map_nil]
  rw [flatMap_singleton_map ta1.transitions
    (fun e => Transition.mk (toLex (e.1, ())) (toLex (e.2.target, ()))
      e.2.symbol e.2.clock_constraints e.2.clock_resets)]
  rfl

theorem equalRange_trivialProduct [LinearOrder S] [LinearOrder L]
    (ta1 : TimedAutomaton S L) (l : L) :
    equalRange (productTA ta1 (trivialTimedAutomaton S)).transitions
      (liftLocation l) =
    (equalRange ta1.transitions l).map (liftTransition l) := by
  rw [productTA_trivial_transitions ta1,
    equalRange_foldl_multimapInsert _ [] _ (by simp)]
  show (ta1.transitions.map (fun e => liftTransition e.1 e.2)).filter _ = _
  rw [List.filter_map]
  have hpred : ((fun t : Transition S (Lex (L × Unit)) =>
      decide (t.source = liftLocation l)) ∘ (fun e => liftTransition e.1 e.2)) =
      (fun e : L × Transition S L => decide (e.1 = l)) := by
    funext e
    show decide (liftLocation e.1 = liftLocation l) = decide (e.1 = l)
    exact decide_eq_decide.mpr liftLocation_injective.eq_iff
  rw [hpred]
  unfold equalRange
  rw [List.map_map]
  refine List.map_congr_left ?_
  intro e he
  have : e.1 = l := by simpa using (List.mem_filter.mp he).2
  show liftTransition e.1 e.2 = liftTransition l e.2
  rw [this]

theorem applyTransition_lift [LinearOrder S] [LinearOrder L]
    (l : L) (tr : Transition S L) (a : S) (time : Time) (p : Path S L) :
    applyTransition (liftTransition l tr) a time (liftPath p) =
      liftPath (applyTransition tr a time p) := by
  unfold applyTransition liftPath liftTransition
  dsimp only
  rw [List.map_append]
  rfl

theorem transitionLoop_lift [LinearOrder S] [LinearOrder L] (a : S)
    (time : Time) (l : L) :
    ∀ (ts : List (Transition S L)) (p : Path S L),
      transitionLoop a time (ts.map (liftTransition l)) (liftPath p) =
        (transitionLoop a time ts p).map liftPath := by
  intro ts
  induction ts with
  | nil => intro p; rfl
  | cons tr rest ih =>
    intro p
    show transitionLoop a time (liftTransition l tr :: rest.map (liftTransition l))
      (liftPath p) = _
    unfold transitionLoop
    have hen : (liftTransition l tr).is_enabled a (liftPath p).clock_valuations =
        tr.is_enabled a p.clock_valuations := rfl
    rw [hen]
    rcases h : tr.is_enabled a p.clock_valuations with - | -
    · simp only [Bool.false_eq_true, if_false]
      exact ih p
    · simp only [if_true, List.map_cons]
      rw [applyTransition_lift l tr a time p, ih (applyTransition tr a time p)]

theorem make_transition_trivialProduct [LinearOrder S] [LinearOrder L]
    (ta1 : TimedAutomaton S L) (p : Path S L) (a : S) (time : Time) :
    (productTA ta1 (trivialTimedAutomaton S)).make_transition (liftPath p)
      a time = (ta1.make_transition p a time).map liftPath := by
  unfold TimedAutomaton.make_transition
  by_cases h : p.tick > time
  · rw [if_pos (show (liftPath p).tick > time from h), if_pos h]
    rfl
  · rw [if_neg (show ¬(liftPath p).tick > time from h), if_neg h]
    show transitionLoop a time
      (equalRange (productTA ta1 (trivialTimedAutomaton S)).transitions
        (liftLocation p.current_location))
      (liftPath (advancePath p time)) = _
    rw [equalRange_trivialProduct ta1 p.current_location,
      transitionLoop_lift a time p.current_location _ (advancePath p time)]
    rfl

theorem mem_finals_trivialProduct [LinearOrder S] [LinearOrder L]
    (ta1 : TimedAutomaton S L) (c : L) :
    liftLocation c ∈ (productTA ta1 (trivialTimedAutomaton S)).final_locations ↔
      c ∈ ta1.final_locations := by
  show liftLocation c ∈ (ta1.final_locations.flatMap
    (fun l1 => (trivialTimedAutomaton S).final_locations.map _)).foldl _ [] ↔ _
  rw [show (trivialTimedAutomaton S).final_locations = [()] from rfl]
  rw [mem_foldl_setInsert]
  simp only [List.not_mem_nil, false_or, List.mem_flatMap, List.mem_map]
  constructor
  · rintro ⟨l1, hl1, u, -, hu⟩
    have : l1 = c := liftLocation_injective (by exact hu)
    subst this
    exact hl1
  · intro hc
    exact ⟨c, hc, (), List.mem_singleton.mpr rfl, rfl⟩

theorem stepFold_trivialProduct [LinearOrder S] [LinearOrder L]
    (ta1 : TimedAutomaton S L) (a : S) (time : Time) :
    ∀ (paths acc : List (Path S L)),
      (paths.map liftPath).foldl
        (fun acc p => pathInsertAll
          ((productTA ta1 (trivialTimedAutomaton S)).make_transition p a time)
          acc) (acc.map liftPath) =
      (paths.foldl
        (fun acc p => pathInsertAll (ta1.make_transition p a time) acc)
        acc).map liftPath := by
  intro paths
  induction paths with
  | nil => intro acc; rfl
  | cons p rest ih =>
    intro acc
    show (rest.map liftPath).foldl _
      (pathInsertAll ((productTA ta1 (trivialTimedAutomaton S)).make_transition
        (liftPath p) a time) (acc.map liftPath)) = _
    rw [make_transition_trivialProduct ta1 p a time,
      pathInsertAll_lift (ta1.make_transition p a time) acc]
    exact ih (pathInsertAll (ta1.make_transition p a time) acc)

theorem acceptsFrom_trivialProduct [LinearOrder S] [LinearOrder L]
    (ta1 : TimedAutomaton S L) :
    ∀ (word : List (S × Time)) (paths : List (Path S L)),
      (productTA ta1 (trivialTimedAutomaton S)).acceptsFrom
        (paths.map liftPath) word = ta1.acceptsFrom paths word := by
  intro word
  induction word with
  | nil =>
    intro paths
    show (paths.map liftPath).any _ = paths.any _
    induction paths with
    | nil => rfl
    | cons p ps ihp =>
      simp only [List.map_cons, List.any_cons]
      rw [ihp]
      congr 1
      exact decide_eq_decide.mpr (mem_finals_trivialProduct ta1 p.current_location)
  | cons wt rest ih =>
    intro paths
    show (productTA ta1 (trivialTimedAutomaton S)).acceptsFrom
      (paths.map liftPath) ((wt.1, wt.2) :: rest) = _
    unfold TimedAutomaton.acceptsFrom
    rw [show (([] : List (Path S (Lex (L × Unit))))) = ([] : List (Path S L)).map liftPath from rfl]
    rw [stepFold_trivialProduct ta1 wt.1 wt.2 paths []]
    rcases hres : paths.foldl
        (fun acc p => pathInsertAll (ta1.make_transition p wt.1 wt.2) acc) [] with
      - | ⟨q, qs⟩ <;> simp only [hres]
    · rfl
    · simp only [List.map_cons, List.isEmpty_cons, Bool.false_eq_true, if_false]
      exact ih (q :: qs)

end ta
end automata

/-- C7: for every well-formed timed automaton `A`, the product of `A` with
the trivial single-location TA (empty synchronization set, trivial
location final) accepts exactly the same timed words as `A`. -/
theorem c7_trivial_product_language {S L : Type} [LinearOrder S]
    [LinearOrder L] (A : automata.ta.TimedAutomaton S L)
    (word : List (S × automata.Time)) (hwf : A.WellFormed) :
    ∃ P, automata.ta.get_product A (automata.ta.trivialTimedAutomaton S) [] =
      .ok P ∧ P.accepts_word word = A.accepts_word word := by
  refine ⟨automata.ta.productTA A (automata.ta.trivialTimedAutomaton S),
    automata.ta.get_product_eq A (automata.ta.trivialTimedAutomaton S) hwf
      automata.ta.trivial_wellFormed, ?_⟩
  show (automata.ta.productTA A (automata.ta.trivialTimedAutomaton S)).acceptsFrom
    ([automata.ta.Path.mk' A.initial_location].map automata.ta.liftPath) word =
    A.acceptsFrom [automata.ta.Path.mk' A.initial_location] word
  exact automata.ta.acceptsFrom_trivialProduct A word
    [automata.ta.Path.mk' A.initial_location]

/-- C7 witness: the language equivalence at the concrete well-formed TA
`taSmall` and the word `(7, 0)`. -/
theorem c7_witness :
    ∃ P, automata.ta.get_product automata.ta.taSmall
        (automata.ta.trivialTimedAutomaton ℕ) [] = .ok P ∧
      P.accepts_word [(7, 0)] = automata.ta.taSmall.accepts_word [(7, 0)] :=
  c7_trivial_product_language automata.ta.taSmall [(7, 0)]
    (by unfold automata.ta.TimedAutomaton.WellFormed; decide)
